import Mathlib

/-!
# Portfolio front-end script (`src/main.js`): a verification development

The script is embedded shallowly.  JavaScript strings are lists of characters,
objects are association lists of their own properties (property reads fall
through to `Object.prototype`, as they do in JavaScript), the document is a
tree of text nodes and elements, and the asynchronous language loader is a
step function over a page state that records the `loadTranslations` calls
still awaiting their fetch.  What the browser decides (which attribute names
`setAttribute` accepts, how `innerHTML` parses markup) is a parameter.
-/

namespace Portfolio

/-! ## Strings and JavaScript values -/

/-- JavaScript strings, as lists of characters. -/
abbrev Str := List Char

/-- Characters removed by `String.prototype.trim`: ECMAScript WhiteSpace and
LineTerminator code points. -/
def isTrimChar (c : Char) : Bool :=
  let n := c.toNat
  n == 0x09 || n == 0x0A || n == 0x0B || n == 0x0C || n == 0x0D || n == 0x20 ||
  n == 0xA0 || n == 0x1680 || (0x2000 ≤ n && n ≤ 0x200A) || n == 0x2028 ||
  n == 0x2029 || n == 0x202F || n == 0x205F || n == 0x3000 || n == 0xFEFF

/-- The method `String.prototype.trim`. -/
def trim (s : Str) : Str :=
  ((s.dropWhile isTrimChar).reverse.dropWhile isTrimChar).reverse

/-- The method `String.prototype.split` with a one-character separator: the
pieces between separators, a single empty piece for the empty string. -/
def split (sep : Char) : Str → List Str
  | [] => [[]]
  | c :: cs =>
    if c = sep then [] :: split sep cs
    else
      match split sep cs with
      | [] => [[c]]
      | p :: ps => (c :: p) :: ps

/-- ASCII lower-casing, applied by the DOM to attribute names of HTML elements. -/
def asciiLower (s : Str) : Str := s.map Char.toLower

/-- The JavaScript values the translation lookup can produce: `undefined`, a
string, a built-in function object inherited from `Object.prototype`, the
object `Object.prototype` itself (the value of the inherited `__proto__`), or
any other value, given by what the script observes of it: its `ToBoolean` and
its `ToString`. -/
inductive JsVal where
  | undefined
  | str (s : Str)
  | native (name : Str)
  | objectPrototype
  | other (truthy : Bool) (text : Str)
  deriving DecidableEq, Repr

/-- JavaScript truthiness (`ToBoolean`). -/
def JsVal.truthy : JsVal → Bool
  | .undefined => false
  | .str s => !s.isEmpty
  | .native _ => true
  | .objectPrototype => true
  | .other b _ => b

/-- JavaScript string coercion (`ToString`), applied when a value is assigned
to `textContent`, `innerHTML` or passed to `setAttribute`. -/
def JsVal.toStr : JsVal → Str
  | .undefined => "undefined".toList
  | .str s => s
  | .native name => "function ".toList ++ name ++ "() \x7b [native code] \x7d".toList
  | .objectPrototype => "[object Object]".toList
  | .other _ s => s

/-- Truthiness of an optional string (`undefined` and `''` are falsy). -/
def truthyStr : Option Str → Bool
  | none => false
  | some s => !s.isEmpty

/-! ## Translation store (`src/main.js` lines 8-24) -/

/-- A translation table of the expected shape: a plain object whose own
properties map keys to strings. -/
abbrev Table := List (Str × Str)

/-- Names of the function-valued properties every plain object inherits from
`Object.prototype`. -/
def objectPrototypeMethods : List Str :=
  ["__defineGetter__".toList, "__defineSetter__".toList, "hasOwnProperty".toList,
   "__lookupGetter__".toList, "__lookupSetter__".toList, "isPrototypeOf".toList,
   "propertyIsEnumerable".toList, "toString".toList, "valueOf".toList,
   "toLocaleString".toList]

/-- A property read on `Object.prototype`, where reads on a plain object end up
when the object has no own property of that name. -/
def objectPrototypeGet (key : Str) : JsVal :=
  if key = "constructor".toList then .native "Object".toList
  else if key = "__proto__".toList then .objectPrototype
  else if key ∈ objectPrototypeMethods then .native key
  else .undefined

/-- The property read `table[key]` on a plain object: own property first, then
the prototype. -/
def Table.get (table : Table) (key : Str) : JsVal :=
  match table.lookup key with
  | some v => .str v
  | none => objectPrototypeGet key

/-- A value `res.json()` can resolve to, as far as the script tells values
apart: a table of the expected shape; one of the falsy values `null`, `false`,
`0`, `""`; or any other value (`true`, a non-zero number, a non-empty string,
an array, an object with members that are not strings), given by its property
reads. -/
inductive Payload where
  | table (entries : Table)
  | falsy
  | other (read : Str → JsVal)

/-- JavaScript truthiness of a cached value. -/
def Payload.truthy : Payload → Bool
  | .table _ => true
  | .falsy => false
  | .other _ => true

/-- The two values `i18n.lang` takes. -/
inductive Lang where
  | es
  | en
  deriving DecidableEq, Repr

/-- The language code string of a language. -/
def Lang.code : Lang → Str
  | .es => "es".toList
  | .en => "en".toList

/-- The module-level object `i18n`: the active language and the own properties
of the cache object `i18n.translations`, most recent assignment first. -/
structure I18n where
  lang : Lang
  translations : List (Str × Payload)

/-- The initial value `{ lang: 'es', translations: {} }`. -/
def I18n.initial : I18n := ⟨.es, []⟩

/-- The read `i18n.translations[name]` for a language code. -/
def I18n.cached (i18n : I18n) (name : Str) : Option Payload :=
  i18n.translations.lookup name

/-- The test `i18n.translations[name]` of line 235 taken as a condition: the
entry exists and is truthy. -/
def I18n.loaded (i18n : I18n) (name : Str) : Bool :=
  match i18n.cached name with
  | some p => p.truthy
  | none => false

/-- The assignment `i18n.translations[name] = value`. -/
def I18n.store (i18n : I18n) (name : Str) (value : Payload) : I18n :=
  { i18n with translations := (name, value) :: i18n.translations }

/-- The function `t`: `(i18n.translations[i18n.lang] || {})[key] || ''`.  A
missing or falsy cache entry is replaced by `{}`. -/
def t (i18n : I18n) (key : Str) : JsVal :=
  let value :=
    match i18n.cached i18n.lang.code with
    | some (.table entries) => Table.get entries key
    | some (.other read) => read key
    | _ => Table.get [] key
  if value.truthy then value else .str []

/-! ## DOM localizer (`src/main.js` lines 26-53) -/

/-- An element without its children: whether it is an HTML element of an HTML
document (the DOM then lower-cases attribute names passed to `setAttribute` and
`getAttribute`; it leaves them as they are on an SVG or MathML element, which
has a `dataset` as well) and its attribute list. -/
structure Element where
  html : Bool
  attrs : List (Str × Str)
  deriving DecidableEq, Repr

/-- A sequence of sibling nodes, each element with the sequence of its
children: the document, or the content of an element. -/
inductive Forest where
  | nil
  | text (data : Str) (next : Forest)
  | element (el : Element) (children next : Forest)
  deriving DecidableEq, Repr

/-- What the browser decides: which names `setAttribute` accepts (for the
others it throws `InvalidCharacterError`), and the nodes the `innerHTML` setter
of an HTML document, which does not throw, makes of a markup string. -/
structure Platform where
  validName : Str → Bool
  parse : Str → Forest

/-- The attribute an element's `setAttribute(name, _)` and `getAttribute(name)`
address. -/
def Element.attrName (el : Element) (name : Str) : Str :=
  if el.html then asciiLower name else name

/-- Change the value of the first attribute called `name`, or append the
attribute when there is none. -/
def setAttr (name value : Str) : List (Str × Str) → List (Str × Str)
  | [] => [(name, value)]
  | (n, v) :: rest =>
    if n = name then (n, value) :: rest else (n, v) :: setAttr name value rest

/-- The effect of `el.setAttribute(name, value)` for a name the DOM accepts. -/
def Element.setAttribute (el : Element) (name value : Str) : Element :=
  { el with attrs := setAttr (el.attrName name) value el.attrs }

/-- The DOM method `el.getAttribute(name)`. -/
def Element.getAttribute (el : Element) (name : Str) : Option Str :=
  el.attrs.lookup (el.attrName name)

/-- The read `el.dataset.i18n`: the attribute `data-i18n`. -/
def Element.i18n (el : Element) : Option Str := el.attrs.lookup "data-i18n".toList

/-- The read `el.dataset.i18nHtml`: the attribute `data-i18n-html`. -/
def Element.i18nHtml (el : Element) : Option Str := el.attrs.lookup "data-i18n-html".toList

/-- The read `el.dataset.i18nAttr`: the attribute `data-i18n-attr`. -/
def Element.i18nAttr (el : Element) : Option Str := el.attrs.lookup "data-i18n-attr".toList

/-- The selector `[data-i18n], [data-i18n-attr]`. -/
def Element.marked (el : Element) : Bool :=
  el.i18n.isSome || el.i18nAttr.isSome

/-- The children `el.textContent = value` leaves: one text node, none for the
empty string. -/
def textNode (value : Str) : Forest :=
  if value.isEmpty then .nil else .text value .nil

/-- A write `applyTranslations` performs on an element, with the arguments as
passed. -/
inductive Write where
  | textContent (value : Str)
  | innerHTML (value : Str)
  | setAttribute (name value : Str)
  deriving DecidableEq, Repr

/-- An element under treatment by the `forEach` callback: the element, the
children a content write gave it (`none` while its children are untouched), the
writes performed on it so far, and whether a `setAttribute` call has thrown. -/
structure Traced where
  el : Element
  content : Option Forest
  writes : List Write
  threw : Bool
  deriving DecidableEq, Repr

/-- Lines 29-39: the text part of the `forEach` callback.  `key` is
`el.dataset.i18n`. -/
def applyText (pf : Platform) (i18n : I18n) (key : Option Str) (st : Traced) : Traced :=
  match key with
  | none => st
  | some k =>
    if k.isEmpty then st
    else
      let value := t i18n k
      if value.truthy then
        if st.el.i18nHtml = some "true".toList then
          { st with content := some (pf.parse value.toStr),
                    writes := st.writes ++ [.innerHTML value.toStr] }
        else
          { st with content := some (textNode value.toStr),
                    writes := st.writes ++ [.textContent value.toStr] }
      else st

/-- The first piece of `pair.split(':').map((part) => part.trim())`: `attr`. -/
def pairAttr (pair : Str) : Str :=
  ((split ':' pair).map trim).headD []

/-- The second piece of `pair.split(':').map((part) => part.trim())`: `attrKey`,
`undefined` when the pair holds no colon. -/
def pairKey (pair : Str) : Option Str :=
  ((split ':' pair).map trim).tail.head?

/-- The value `attrKey || key` of line 47. -/
def keyToUse (attrKey key : Option Str) : Option Str :=
  if truthyStr attrKey then attrKey else key

/-- The call `el.setAttribute(name, value)` of line 50: it throws when the
DOM rejects the name. -/
def Traced.callSetAttribute (pf : Platform) (st : Traced) (name value : Str) : Traced :=
  if pf.validName name then
    { st with el := st.el.setAttribute name value,
              writes := st.writes ++ [.setAttribute name value] }
  else { st with threw := true }

/-- Lines 45-50: the callback run on each piece of `attrSpec.split(',')`. -/
def applyPair (pf : Platform) (i18n : I18n) (key : Option Str) (st : Traced) (pair : Str) :
    Traced :=
  let attr := pairAttr pair
  let attrKey := pairKey pair
  if attr.isEmpty then st
  else
    match keyToUse attrKey key with
    | none => st
    | some k =>
      if k.isEmpty then st
      else
        let value := t i18n k
        if value.truthy then st.callSetAttribute pf attr value.toStr else st

/-- Lines 41-51: the attribute part of the `forEach` callback; once a call has
thrown, the remaining pairs are not visited. -/
def applyAttrs (pf : Platform) (i18n : I18n) (key : Option Str) (st : Traced) : Traced :=
  match st.el.i18nAttr with
  | none => st
  | some attrSpec =>
    if attrSpec.isEmpty then st
    else (split ',' attrSpec).foldl
      (fun st pair => if st.threw then st else applyPair pf i18n key st pair) st

/-- Lines 28-52: the `forEach` callback on one selected element. -/
def applyElement (pf : Platform) (i18n : I18n) (el : Element) : Traced :=
  let key := el.i18n
  applyAttrs pf i18n key (applyText pf i18n key ⟨el, none, [], false⟩)

/-- The nodes that were in a forest when `applyTranslations` was called, as the
call leaves them, arranged as they were then.  An element comes with the
children it has after the call and with the nodes that were its children at
the time of the call: a content write takes these out of the document, yet
they were selected all the same and are visited. -/
inductive Trace where
  | nil
  | text (data : Str) (next : Trace)
  | element (el : Element) (children : Forest) (former next : Trace)
  deriving DecidableEq, Repr

/-- The forest the nodes form after the call: each element with the children
it has then. -/
def Trace.doc : Trace → Forest
  | .nil => .nil
  | .text data next => .text data next.doc
  | .element el children _ next => .element el children next.doc

/-- Nodes the call did not get to: they are as they were. -/
def Trace.untouched : Forest → Trace
  | .nil => .nil
  | .text data next => .text data (Trace.untouched next)
  | .element el children next =>
    .element el children (Trace.untouched children) (Trace.untouched next)

/-- The outcome of a call of `applyTranslations`: the nodes after the call,
the writes it performed, one list for each selected element it visited, in the
order of `elements`, and whether it ended by an exception. -/
structure Pass where
  nodes : Trace
  writes : List (List Write)
  threw : Bool
  deriving DecidableEq, Repr

/-- The document a call leaves. -/
def Pass.doc (r : Pass) : Forest := r.nodes.doc

/-- The `forEach` of line 28 over the elements `querySelectorAll` selected in
a forest, in document order.  The callback writes to its own element only, so
each element is visited in the state it had when selected; an element whose
content the callback replaced loses its former children, which were selected
all the same and are visited off the document; an exception ends the loop. -/
def localizeForest (pf : Platform) (i18n : I18n) : Forest → Pass
  | .nil => ⟨.nil, [], false⟩
  | .text data next =>
    let rest := localizeForest pf i18n next
    ⟨.text data rest.nodes, rest.writes, rest.threw⟩
  | .element el children next =>
    if el.marked then
      let st := applyElement pf i18n el
      if st.threw then
        ⟨.element st.el (st.content.getD children) (Trace.untouched children)
           (Trace.untouched next), [st.writes], true⟩
      else
        let inner := localizeForest pf i18n children
        let kept := st.content.getD inner.doc
        if inner.threw then
          ⟨.element st.el kept inner.nodes (Trace.untouched next), st.writes :: inner.writes,
            true⟩
        else
          let rest := localizeForest pf i18n next
          ⟨.element st.el kept inner.nodes rest.nodes, st.writes :: (inner.writes ++ rest.writes),
            rest.threw⟩
    else
      let inner := localizeForest pf i18n children
      if inner.threw then
        ⟨.element el inner.doc inner.nodes (Trace.untouched next), inner.writes, true⟩
      else
        let rest := localizeForest pf i18n next
        ⟨.element el inner.doc inner.nodes rest.nodes, inner.writes ++ rest.writes, rest.threw⟩

/-- The function `applyTranslations` on the document. -/
def applyTranslations (pf : Platform) (i18n : I18n) (doc : Forest) : Pass :=
  localizeForest pf i18n doc

/-- A step down a forest: to the next sibling, or into the children. -/
inductive Step where
  | next
  | child
  deriving DecidableEq, Repr

/-- The part of a forest that starts at a position. -/
def Forest.sub : List Step → Forest → Option Forest
  | [], f => some f
  | .next :: p, .text _ n => Forest.sub p n
  | .next :: p, .element _ _ n => Forest.sub p n
  | .child :: p, .element _ c _ => Forest.sub p c
  | _, _ => none

/-- The nodes that start at a position of the forest as it was at the time of
the call: a step into the children is one into the former children. -/
def Trace.sub : List Step → Trace → Option Trace
  | [], f => some f
  | .next :: p, .text _ n => Trace.sub p n
  | .next :: p, .element _ _ _ n => Trace.sub p n
  | .child :: p, .element _ _ c _ => Trace.sub p c
  | _, _ => none

/-- Whether the `forEach` gets to a position of the document: no call on an
earlier element has thrown. -/
def visits (pf : Platform) (i18n : I18n) : List Step → Forest → Bool
  | [], _ => true
  | .next :: p, .text _ n => visits pf i18n p n
  | .next :: p, .element el c n =>
    (!el.marked || !(applyElement pf i18n el).threw) &&
      !(localizeForest pf i18n c).threw && visits pf i18n p n
  | .child :: p, .element el c _ =>
    (!el.marked || !(applyElement pf i18n el).threw) && visits pf i18n p c
  | _, _ => false

/-- Whether the node at a position is still in the document when the `forEach`
gets there: no element around the position had its content replaced. -/
def attached (pf : Platform) (i18n : I18n) : List Step → Forest → Bool
  | [], _ => true
  | .next :: p, .text _ n => attached pf i18n p n
  | .next :: p, .element _ _ n => attached pf i18n p n
  | .child :: p, .element el c _ =>
    (!el.marked || (applyElement pf i18n el).content.isNone) && attached pf i18n p c
  | _, _ => false

/-- No element of the forest, at any depth, matches the selector. -/
def Forest.noMarked : Forest → Bool
  | .nil => true
  | .text _ n => n.noMarked
  | .element el c n => !el.marked && c.noMarked && n.noMarked

/-! ### The writes of `applyTranslations` as a function of the markers -/

/-- The content write lines 29-39 decide, from the text key and the value of
`data-i18n-html`. -/
def textWrites (i18n : I18n) (key rich : Option Str) : List Write :=
  match key with
  | none => []
  | some k =>
    if k.isEmpty then []
    else if (t i18n k).truthy then
      if rich = some "true".toList then [.innerHTML (t i18n k).toStr]
      else [.textContent (t i18n k).toStr]
    else []

/-- The `setAttribute` call lines 45-50 decide for one pair. -/
def pairWrites (i18n : I18n) (key : Option Str) (pair : Str) : List Write :=
  if (pairAttr pair).isEmpty then []
  else
    match keyToUse (pairKey pair) key with
    | none => []
    | some k =>
      if k.isEmpty then []
      else if (t i18n k).truthy then [.setAttribute (pairAttr pair) (t i18n k).toStr]
      else []

/-- The pairs of an attribute-override string: none when the string is absent
or empty, else its comma-separated pieces. -/
def specPairs (attrSpec : Option Str) : List Str :=
  match attrSpec with
  | none => []
  | some spec => if spec.isEmpty then [] else split ',' spec

/-- The `setAttribute` calls lines 41-51 decide, in order. -/
def attrWrites (i18n : I18n) (key attrSpec : Option Str) : List Write :=
  (specPairs attrSpec).flatMap (pairWrites i18n key)

/-- Whether the DOM carries out a write: a `setAttribute` call with a name it
rejects throws instead. -/
def Write.accepted (pf : Platform) : Write → Bool
  | .setAttribute n _ => pf.validName n
  | _ => true

/-- The writes carried out: those before the first call that throws. -/
def accepted (pf : Platform) (ws : List Write) : List Write :=
  ws.takeWhile (Write.accepted pf)

/-- Whether one of the calls throws. -/
def rejected (pf : Platform) (ws : List Write) : Bool :=
  ws.any fun w => !w.accepted pf

/-- The attributes `name := value` addressed by the `setAttribute` calls among
a list of writes, for an element with the given `html` flag. -/
def attrUpdates (html : Bool) : List Write → List (Str × Str)
  | [] => []
  | .setAttribute n v :: ws => ((if html then asciiLower n else n), v) :: attrUpdates html ws
  | _ :: ws => attrUpdates html ws

/-- The children the last content write among a list of writes leaves, if
there is one. -/
def contentOf (pf : Platform) : List Write → Option Forest
  | [] => none
  | .textContent v :: ws => some ((contentOf pf ws).getD (textNode v))
  | .innerHTML v :: ws => some ((contentOf pf ws).getD (pf.parse v))
  | .setAttribute _ _ :: ws => contentOf pf ws

/-- Apply attribute updates in order. -/
def setAttrs (updates : List (Str × Str)) (attrs : List (Str × Str)) : List (Str × Str) :=
  updates.foldl (fun a u => setAttr u.1 u.2 a) attrs

/-- The attribute updates an element's override string leads to: for each
pair, in order and up to the first name the DOM rejects, the attribute the
pair names with the value its key resolves to, when both are non-empty. -/
def overrides (pf : Platform) (i18n : I18n) (el : Element) : List (Str × Str) :=
  attrUpdates el.html (accepted pf (attrWrites i18n el.i18n el.i18nAttr))

/-- The children a content write gives the element, if lines 29-39 decide
one. -/
def contentWrite (pf : Platform) (i18n : I18n) (el : Element) : Option Forest :=
  contentOf pf (textWrites i18n el.i18n el.i18nHtml)

/-- The three marker attributes `applyTranslations` reads. -/
def markerNames : List Str :=
  ["data-i18n".toList, "data-i18n-html".toList, "data-i18n-attr".toList]

/-- No pair of the element's attribute-override string addresses one of the
marker attributes. -/
def Element.keepsMarkers (el : Element) : Bool :=
  (specPairs el.i18nAttr).all fun pair => !markerNames.contains (el.attrName (pairAttr pair))

/-- The documents on which a second call repeats the first: no override pair
addresses a marker attribute; a selected element whose content is replaced
contains no selected element, and neither does the content it receives. -/
def Forest.tame (pf : Platform) (i18n : I18n) : Forest → Bool
  | .nil => true
  | .text _ n => n.tame pf i18n
  | .element el c n =>
    (if el.marked then
        el.keepsMarkers &&
          (match contentWrite pf i18n el with
            | some fresh => c.noMarked && fresh.noMarked
            | none => c.tame pf i18n)
      else c.tame pf i18n) && n.tame pf i18n

/-- The own entries of the object `t` reads: those of the table cached for the
active language, none for `{}` (nothing cached, or a falsy value); `none` when
the cached value is truthy and not a table. -/
def I18n.activeEntries (i18n : I18n) : Option Table :=
  match i18n.cached i18n.lang.code with
  | some (.table entries) => some entries
  | some (.other _) => none
  | _ => some []

/-! ## Language controller (`src/main.js` lines 10-18, 55-76, 217-242)

`initLanguage` and the click handler are `async`: each runs synchronously up to
its `await loadTranslations(..)` and is resumed when that call settles.  The
page state lists the calls in flight, so events can interleave as the browser
allows.  An exception out of `applyTranslations` ends the function that called
`setLanguage`. -/

/-- A `loadTranslations` call awaiting its fetch, with the code that resumes
after it: the rest of `initLanguage` (line 229, with `initialLang`) or the rest
of a click handler (line 236, with `next`). -/
inductive Pending where
  | init (initialLang : Str)
  | click (next : Lang)
  deriving DecidableEq, Repr

/-- The language a pending `loadTranslations` call was made for. -/
def Pending.lang : Pending → Str
  | .init initialLang => initialLang
  | .click next => next.code

/-- The part of the page the language code reads and writes. -/
structure Page where
  /-- Whether `#langToggle` exists. -/
  hasButton : Bool
  /-- Whether the button holds a `span[aria-hidden="true"]`. -/
  hasIcon : Bool
  i18n : I18n
  doc : Forest
  /-- The `lang` attribute of the document element. -/
  rootLang : Option Str
  /-- The `aria-pressed` attribute of the button. -/
  pressed : Option Str
  /-- The text of the icon span. -/
  icon : Option Str
  /-- Whether `localStorage` can be used without throwing. -/
  storageAvailable : Bool
  /-- The item `lang` of `localStorage`. -/
  storedLang : Option Str
  /-- Whether the click listener of line 233 is registered. -/
  listening : Bool
  /-- The `loadTranslations` calls in flight, oldest first. -/
  inFlight : List Pending
  /-- The URLs fetched so far, oldest first. -/
  requests : List Str

/-- The page when the script starts. -/
def Page.boot (hasButton hasIcon storageAvailable : Bool) (storedLang : Option Str)
    (doc : Forest) : Page :=
  { hasButton := hasButton, hasIcon := hasIcon, i18n := I18n.initial, doc := doc,
    rootLang := none, pressed := none, icon := none,
    storageAvailable := storageAvailable, storedLang := storedLang,
    listening := false, inFlight := [], requests := [] }

/-- The URL `i18n/${lang}.json`. -/
def translationUrl (lang : Str) : Str :=
  "i18n/".toList ++ lang ++ ".json".toList

/-- The call `loadTranslations(lang)` up to its first `await`: the fetch is
issued and the caller is suspended on the call. -/
def loadTranslations (page : Page) (lang : Str) (caller : Pending) : Page :=
  { page with requests := page.requests ++ [translationUrl lang],
              inFlight := page.inFlight ++ [caller] }

/-- The value `loadTranslations` returns once settled: what `res.json()`
resolved to, or `{}` when the fetch or the parse failed or the response was
not ok (`none`). -/
def loadResult (response : Option Payload) : Payload :=
  response.getD (.table [])

/-- The function `getStoredLanguage`. -/
def getStoredLanguage (page : Page) : Option Str :=
  if page.storageAvailable then page.storedLang else none

/-- The function `storeLanguage`. -/
def storeLanguage (page : Page) (lang : Str) : Page :=
  if page.storageAvailable then { page with storedLang := some lang } else page

/-- The function `setLanguage`, and whether `applyTranslations` ended it by an
exception. -/
def setLanguage (pf : Platform) (page : Page) (lang : Str) : Page × Bool :=
  let next : Lang := if lang = "en".toList then .en else .es
  let i18n := { page.i18n with lang := next }
  let pass := applyTranslations pf i18n page.doc
  ({ page with i18n := i18n, rootLang := some next.code, doc := pass.doc }, pass.threw)

/-- The closure `setButtonState` of `initLanguage`. -/
def setButtonState (page : Page) : Page :=
  { page with
    pressed := some (if page.i18n.lang = .en then "true".toList else "false".toList),
    icon := if page.hasIcon then some (page.i18n.lang.code.map Char.toUpper) else page.icon }

/-- The function `initLanguage` up to its `await` (lines 218-229). -/
def initLanguage (page : Page) : Page :=
  if page.hasButton then
    let stored := getStoredLanguage page
    let initialLang := if truthyStr stored then stored.getD [] else "es".toList
    loadTranslations page initialLang (.init initialLang)
  else page

/-- The code resumed when a `loadTranslations` call returns `value`: lines
229-233 for `initLanguage`, lines 236-240 for a click handler. -/
def resume (pf : Platform) (page : Page) (value : Payload) : Pending → Page
  | .init initialLang =>
    let switched := setLanguage pf { page with i18n := page.i18n.store initialLang value }
      initialLang
    if switched.2 then switched.1
    else { setButtonState switched.1 with listening := true }
  | .click next =>
    let switched := setLanguage pf { page with i18n := page.i18n.store next.code value }
      next.code
    if switched.2 then switched.1
    else storeLanguage (setButtonState switched.1) next.code

/-- The click listener of line 233, up to its `await` if it reaches one. -/
def onClick (pf : Platform) (page : Page) : Page :=
  if page.listening then
    let next : Lang := if page.i18n.lang = .es then .en else .es
    if !page.i18n.loaded next.code then
      loadTranslations page next.code (.click next)
    else
      let switched := setLanguage pf page next.code
      if switched.2 then switched.1
      else storeLanguage (setButtonState switched.1) next.code
  else page

/-- What can happen to the page: a click on the language button, or the
`i`-th call in flight settling with a response. -/
inductive Event where
  | click
  | settle (i : Nat) (response : Option Payload)

/-- One event. -/
def step (pf : Platform) (page : Page) : Event → Page
  | .click => onClick pf page
  | .settle i response =>
    match page.inFlight.get? i with
    | none => page
    | some caller =>
      resume pf { page with inFlight := page.inFlight.eraseIdx i } (loadResult response) caller

/-- A sequence of events. -/
def run (pf : Platform) (page : Page) (events : List Event) : Page :=
  events.foldl (step pf) page

/-- The number of `loadTranslations` calls in flight for a language. -/
def inFlightFor (page : Page) (lang : Str) : Nat :=
  (page.inFlight.filter fun p => p.lang = lang).length

/-- No click arrives while the load started by an earlier click is pending:
each click handler runs to completion before the next click is dispatched. -/
def handlersComplete (pf : Platform) (page : Page) : List Event → Bool
  | [] => true
  | .click :: events =>
    !(page.listening && !page.inFlight.isEmpty) &&
      handlersComplete pf (step pf page .click) events
  | e :: events => handlersComplete pf (step pf page e) events

/-- Every translation file that loads holds a truthy value. -/
def truthyResponses : List Event → Bool
  | [] => true
  | .settle _ (some value) :: events => value.truthy && truthyResponses events
  | _ :: events => truthyResponses events

/-! ## Mobile menu (`src/main.js` lines 81-155) -/

/-- The state the menu code reads and writes: whether `#menu` carries the class
`is-open`, the `aria-expanded` attribute of `#menuToggle`, and whether the
button has the focus. -/
structure Menu where
  isOpen : Bool
  ariaExpanded : Option Str
  focused : Bool
  deriving DecidableEq, Repr

/-- The constant `MOBILE_BREAKPOINT`. -/
def MOBILE_BREAKPOINT : Nat := 900

/-- The closure `isMobileViewport`, on the current `window.innerWidth`. -/
def isMobileViewport (innerWidth : Nat) : Bool :=
  decide (innerWidth < MOBILE_BREAKPOINT)

/-- The closure `setExpanded`. -/
def setExpanded (m : Menu) (expanded : Bool) : Menu :=
  { m with ariaExpanded := some (if expanded then "true".toList else "false".toList) }

/-- The closure `openMenu`. -/
def openMenu (m : Menu) : Menu :=
  setExpanded { m with isOpen := true } true

/-- The closure `closeMenu`. -/
def closeMenu (m : Menu) : Menu :=
  setExpanded { m with isOpen := false } false

/-- The closure `toggleMenu`. -/
def toggleMenu (m : Menu) : Menu :=
  if m.isOpen then closeMenu m else openMenu m

/-- The listeners `initMobileMenu` registers, each with what it reads from its
event and from the window. -/
inductive MenuEvent where
  /-- The `click` listener of the button. -/
  | buttonClick
  /-- The `click` listener of the menu; `onLink` is `target.closest('a')` being
  found. -/
  | menuClick (onLink : Bool)
  /-- The `keydown` listener of the document. -/
  | keydown (key : Str)
  /-- The `click` listener of the document, with `window.innerWidth` and
  whether the target lies in the menu, in the button. -/
  | documentClick (innerWidth : Nat) (insideMenu insideToggle : Bool)
  /-- The `resize` listener of the window, with `window.innerWidth`. -/
  | resize (innerWidth : Nat)
  deriving DecidableEq, Repr

/-- The listeners of lines 111-151. -/
def menuStep (m : Menu) : MenuEvent → Menu
  | .buttonClick => toggleMenu m
  | .menuClick onLink => if onLink then closeMenu m else m
  | .keydown key =>
    if key = "Escape".toList && m.isOpen then { closeMenu m with focused := true } else m
  | .documentClick innerWidth insideMenu insideToggle =>
    if !isMobileViewport innerWidth then m
    else if !m.isOpen then m
    else if !insideMenu && !insideToggle then closeMenu m
    else m
  | .resize innerWidth => if !isMobileViewport innerWidth then closeMenu m else m

/-- The function `initMobileMenu`: nothing is set up (`none`) when the button or
the menu is missing; otherwise the listeners are registered and the initial
aria state is written (line 154). -/
def initMobileMenu (hasButton hasMenu : Bool) (m : Menu) : Option Menu :=
  if !hasButton || !hasMenu then none
  else some (setExpanded m m.isOpen)

/-- A sequence of listener runs. -/
def menuRun (m : Menu) (events : List MenuEvent) : Menu :=
  events.foldl menuStep m

/-- The menu invariant: `aria-expanded` is `'true'` exactly when the menu is
open and `'false'` otherwise. -/
def Menu.consistent (m : Menu) : Prop :=
  m.ariaExpanded = some (if m.isOpen then "true".toList else "false".toList)

/-! ## Theme (`src/main.js` lines 160-212) -/

/-- The state the theme code reads and writes: the classes `theme-dark` and
`theme-light` of the body, the `aria-pressed` attribute of `#themeToggle`, and
the item `theme` of `localStorage`. -/
structure Theme where
  themeDark : Bool
  themeLight : Bool
  ariaPressed : Option Str
  storageAvailable : Bool
  storedTheme : Option Str
  deriving DecidableEq, Repr

/-- The closure `getSystemPref`; `matchMedia` is `none` when `window.matchMedia`
is missing, else whether `(prefers-color-scheme: dark)` matches. -/
def getSystemPref (matchMedia : Option Bool) : Str :=
  match matchMedia with
  | none => "light".toList
  | some dark => if dark then "dark".toList else "light".toList

/-- The closure `getStoredTheme`. -/
def getStoredTheme (s : Theme) : Option Str :=
  if s.storageAvailable then s.storedTheme else none

/-- The closure `storeTheme`. -/
def storeTheme (s : Theme) (theme : Str) : Theme :=
  if s.storageAvailable then { s with storedTheme := some theme } else s

/-- The closure `applyTheme`, with `setButtonState` of `initTheme` inlined. -/
def applyTheme (s : Theme) (theme : Str) : Theme :=
  let isDark := decide (theme = "dark".toList)
  { s with themeDark := isDark, themeLight := !isDark,
           ariaPressed := some (if isDark then "true".toList else "false".toList) }

/-- The value `initialTheme` of line 202. -/
def initialTheme (stored : Option Str) (matchMedia : Option Bool) : Str :=
  match stored with
  | some v => if v = "dark".toList || v = "light".toList then v else getSystemPref matchMedia
  | none => getSystemPref matchMedia

/-- The function `initTheme`: nothing happens when `#themeToggle` is missing. -/
def initTheme (hasButton : Bool) (matchMedia : Option Bool) (s : Theme) : Theme :=
  if hasButton then applyTheme s (initialTheme (getStoredTheme s) matchMedia) else s

/-- The click listener of line 206. -/
def onThemeClick (s : Theme) : Theme :=
  let nextTheme := if s.themeDark then "light".toList else "dark".toList
  storeTheme (applyTheme s nextTheme) nextTheme

/-! ## Cursor glow (`src/main.js` lines 247-277), in exact arithmetic -/

/-- The variables of `initCursorGlow`, the coordinates as rationals. -/
structure Glow where
  rafId : Nat
  targetX : ℚ
  targetY : ℚ
  currentX : ℚ
  currentY : ℚ
  deriving DecidableEq

/-- The initial values of lines 249-253. -/
def Glow.initial : Glow := ⟨0, 1/2, 1/2, 1/2, 1/2⟩

/-- The constant `ease` of `update`. -/
def ease : ℚ := 12 / 100

/-- The closure `update`: one animation frame.  `requestAnimationFrame` returns
a non-zero handle. -/
def update (g : Glow) : Glow :=
  { g with currentX := g.currentX + (g.targetX - g.currentX) * ease,
           currentY := g.currentY + (g.targetY - g.currentY) * ease,
           rafId := g.rafId + 1 }

/-- The closure `handleMove`, for a pointer at `(clientX, clientY)` in a window
of positive size. -/
def handleMove (g : Glow) (clientX clientY innerWidth innerHeight : ℚ) : Glow :=
  { g with targetX := clientX / innerWidth, targetY := clientY / innerHeight,
           rafId := if g.rafId = 0 then 1 else g.rafId }

/-- The closure `handleLeave`. -/
def handleLeave (g : Glow) : Glow :=
  { g with targetX := 1 / 2, targetY := 1 / 2 }

/-- The state after `n` animation frames. -/
def ticks : Nat → Glow → Glow
  | 0, g => g
  | n + 1, g => ticks n (update g)

/-! ## Concrete inputs -/

/-- The rule of the DOM Standard for the names `setAttribute` accepts: not
empty and without ASCII whitespace, NUL, `/`, `=` and `>`. -/
def domValidName (name : Str) : Bool :=
  !name.isEmpty && name.all fun c =>
    !(c.toNat == 0x20 || c.toNat == 0x09 || c.toNat == 0x0A || c.toNat == 0x0C ||
      c.toNat == 0x0D || c.toNat == 0x00 || c == '/' || c == '=' || c == '>')

/-- The HTML parser on the strings used below: the fragments `<b>Hi</b>` and
`<span data-i18n=b>x</span>`, and strings without markup. -/
def sampleParse (markup : Str) : Forest :=
  if markup = "<b>Hi</b>".toList then .element ⟨true, []⟩ (.text "Hi".toList .nil) .nil
  else if markup = "<span data-i18n=b>x</span>".toList then
    .element ⟨true, [("data-i18n".toList, "b".toList)]⟩ (.text "x".toList .nil) .nil
  else textNode markup

/-- A browser, as far as the examples need one. -/
def browser : Platform := ⟨domValidName, sampleParse⟩

/-- The store with English active and the table `{"hello": "Hi"}` loaded. -/
def englishHi : I18n :=
  ⟨.en, [("en".toList, .table [("hello".toList, "Hi".toList)])]⟩

/-- The store with English active and the table `{"hello": "<b>Hi</b>"}`. -/
def englishRich : I18n :=
  ⟨.en, [("en".toList, .table [("hello".toList, "<b>Hi</b>".toList)])]⟩

/-- The store with English active and the table
`{"a": "A", "b": "c", "c": "C"}`. -/
def englishChain : I18n :=
  ⟨.en, [("en".toList, .table [("a".toList, "A".toList), ("b".toList, "c".toList),
    ("c".toList, "C".toList)])]⟩

/-- The store with English active and the table
`{"a": "<span data-i18n=b>x</span>", "b": "B"}`. -/
def englishMarkup : I18n :=
  ⟨.en, [("en".toList, .table [("a".toList, "<span data-i18n=b>x</span>".toList),
    ("b".toList, "B".toList)])]⟩

/-- The store with English active and the table `{"": "X"}`. -/
def englishEmptyKey : I18n :=
  ⟨.en, [("en".toList, .table [([], "X".toList)])]⟩

/-- The old content `<i>old</i>` of the example elements. -/
def oldContent : Forest :=
  .element ⟨true, []⟩ (.text "old".toList .nil) .nil

/-- The tag `<p data-i18n="hello">`. -/
def helloTag : Element := ⟨true, [("data-i18n".toList, "hello".toList)]⟩

/-- The tag `<p data-i18n="missing">`. -/
def missingTag : Element := ⟨true, [("data-i18n".toList, "missing".toList)]⟩

/-- The tag `<p data-i18n="hello" data-i18n-html="true">`. -/
def richTag : Element :=
  ⟨true, [("data-i18n".toList, "hello".toList), ("data-i18n-html".toList, "true".toList)]⟩

/-- The tag `<p data-i18n="">`. -/
def emptyKeyTag : Element := ⟨true, [("data-i18n".toList, [])]⟩

/-- The tag `<p data-i18n-attr="ti tle:hello">`: the name holds a space. -/
def spacedTag : Element := ⟨true, [("data-i18n-attr".toList, "ti tle:hello".toList)]⟩

/-- The tag `<p data-i18n="a" data-i18n-attr="data-i18n:b">`: its override
string addresses the text-key marker itself. -/
def selfKeyedTag : Element :=
  ⟨true, [("data-i18n".toList, "a".toList), ("data-i18n-attr".toList, "data-i18n:b".toList)]⟩

/-- The tag `<p data-i18n="constructor">`. -/
def constructorTag : Element := ⟨true, [("data-i18n".toList, "constructor".toList)]⟩

/-- The store with English active and the table `{"hello": "Hi", "bye": "Bye"}`. -/
def englishTwo : I18n :=
  ⟨.en, [("en".toList, .table [("hello".toList, "Hi".toList), ("bye".toList, "Bye".toList)])]⟩

/-- The tag `<a data-i18n-attr="title:hello,title:bye">`: two pairs address the
same attribute. -/
def twiceTag : Element := ⟨true, [("data-i18n-attr".toList, "title:hello,title:bye".toList)]⟩

/-- The store with English active and the table `{"a": "<b>Hi</b>", "b": "true"}`. -/
def englishFlag : I18n :=
  ⟨.en, [("en".toList, .table [("a".toList, "<b>Hi</b>".toList), ("b".toList, "true".toList)])]⟩

/-- The tag `<p data-i18n="a" data-i18n-attr="data-i18n-html:b">`: its override
string addresses the markup flag. -/
def flagKeyedTag : Element :=
  ⟨true, [("data-i18n".toList, "a".toList),
    ("data-i18n-attr".toList, "data-i18n-html:b".toList)]⟩

/-- The store with English active and the table `{"a": "A", "b": "title:a"}`. -/
def englishSpec : I18n :=
  ⟨.en, [("en".toList, .table [("a".toList, "A".toList), ("b".toList, "title:a".toList)])]⟩

/-- The tag `<p data-i18n-attr="data-i18n-attr:b">`: its override string
addresses the override string itself. -/
def specKeyedTag : Element := ⟨true, [("data-i18n-attr".toList, "data-i18n-attr:b".toList)]⟩

/-- The tag `<p data-i18n="a">`. -/
def aTag : Element := ⟨true, [("data-i18n".toList, "a".toList)]⟩

/-- The tag `<span data-i18n="b">`. -/
def bTag : Element := ⟨true, [("data-i18n".toList, "b".toList)]⟩

/-- The tag `<p data-i18n="a" data-i18n-html="true">`. -/
def aRichTag : Element :=
  ⟨true, [("data-i18n".toList, "a".toList), ("data-i18n-html".toList, "true".toList)]⟩

/-- The tag `<a data-i18n="hello" data-i18n-attr="title, aria-label:hello, alt:missing">`
with the attribute `alt="old"`. -/
def linkTag : Element :=
  ⟨true, [("data-i18n".toList, "hello".toList),
    ("data-i18n-attr".toList, "title, aria-label:hello, alt:missing".toList),
    ("alt".toList, "old".toList)]⟩

/-- The document `<p data-i18n="hello"><i>old</i></p><p data-i18n="missing"><i>old</i></p>`. -/
def scenarioDoc : Forest :=
  .element helloTag oldContent (.element missingTag oldContent .nil)

/-- The resolution order of the specification: the stored preference if it is
one of the two valid values, else `dark` when the platform media query exists
and reports a dark preference, else `light`. -/
def resolvedTheme (stored : Option Str) (matchMedia : Option Bool) : Str :=
  if stored = some "dark".toList then "dark".toList
  else if stored = some "light".toList then "light".toList
  else if matchMedia = some true then "dark".toList
  else "light".toList

/-- The number of fetches of the translation file of a language so far. -/
def fetchesFor (page : Page) (lang : Str) : Nat :=
  (page.requests.filter fun u => u = translationUrl lang).length

/-- The bookkeeping invariant of the loader: at most one call is in flight,
no URL was fetched twice, and every URL fetched belongs to a language that is
loaded or whose call is still in flight. -/
def Page.loadsAccounted (page : Page) : Prop :=
  page.inFlight.length ≤ 1 ∧ page.requests.Nodup ∧
  ∀ u ∈ page.requests, ∃ lang, u = translationUrl lang ∧
    (page.i18n.loaded lang = true ∨ ∃ q ∈ page.inFlight, q.lang = lang)

/-! ## Properties of the translation store -/

/-- For a key that is neither an own key of the table read nor a property
name of `Object.prototype`, `t` returns the empty string. -/
theorem t_missing (i18n : I18n) (key : Str) (entries : Table)
    (hactive : i18n.activeEntries = some entries)
    (hown : entries.lookup key = none)
    (hproto : objectPrototypeGet key = .undefined) :
    t i18n key = .str [] := by
  unfold I18n.activeEntries at hactive
  unfold t
  split at hactive
  next e he =>
    simp only [Option.some.injEq] at hactive
    subst hactive
    simp [he, Table.get, hown, hproto, JsVal.truthy]
  next => simp at hactive
  next h1 h2 =>
    simp only [Option.some.injEq] at hactive
    subst hactive
    rcases hc : i18n.cached i18n.lang.code with _ | p
    · simp [Table.get, hproto, JsVal.truthy]
    · cases p with
      | table e => exact absurd hc (h1 e)
      | falsy => simp [Table.get, hproto, JsVal.truthy]
      | other r => exact absurd hc (h2 r)

/-- For an own key of the table read with a non-empty value, `t` returns that
value. -/
theorem t_present (i18n : I18n) (key value : Str) (entries : Table)
    (hactive : i18n.cached i18n.lang.code = some (.table entries))
    (hown : entries.lookup key = some value) (hne : value ≠ []) :
    t i18n key = .str value := by
  cases value with
  | nil => exact absurd rfl hne
  | cons c cs => simp [t, hactive, Table.get, hown, JsVal.truthy]

/-- The value `t` returns is truthy exactly when it is not the empty string. -/
theorem t_truthy_iff (i18n : I18n) (key : Str) :
    (t i18n key).truthy = true ↔ t i18n key ≠ .str [] := by
  unfold t
  dsimp only
  split
  next h =>
    refine ⟨fun _ hv => ?_, fun _ => h⟩
    rw [hv] at h
    simp [JsVal.truthy] at h
  next h => simp [JsVal.truthy]

/-- C1 (defect in the code): with no table cached, and also with the table
`{"hello": "Hi"}` active, the keys `constructor`, `toString` and `__proto__`
are not keys of the active table, yet `t` returns the inherited
`Object.prototype` members instead of the empty string. -/
theorem t_inherited_key_not_empty :
    t I18n.initial "constructor".toList = .native "Object".toList ∧
    t I18n.initial "toString".toList = .native "toString".toList ∧
    t I18n.initial "__proto__".toList = .objectPrototype ∧
    ([("hello".toList, "Hi".toList)] : Table).lookup "constructor".toList = none ∧
    t ⟨.en, [("en".toList, .table [("hello".toList, "Hi".toList)])]⟩ "constructor".toList
      = .native "Object".toList ∧
    t ⟨.en, [("en".toList, .table [("hello".toList, "Hi".toList)])]⟩ "constructor".toList
      ≠ .str [] := by
  decide

/-! ## Mobile menu -/

/-- The closure `closeMenu` leaves the menu consistent. -/
theorem closeMenu_consistent (m : Menu) : (closeMenu m).consistent := by
  simp [closeMenu, setExpanded, Menu.consistent]

/-- The closure `openMenu` leaves the menu consistent. -/
theorem openMenu_consistent (m : Menu) : (openMenu m).consistent := by
  simp [openMenu, setExpanded, Menu.consistent]

/-- Every listener keeps the menu consistent. -/
theorem menuStep_consistent (m : Menu) (e : MenuEvent) (h : m.consistent) :
    (menuStep m e).consistent := by
  have hc := closeMenu_consistent m
  have ho := openMenu_consistent m
  cases e with
  | buttonClick =>
    simp only [menuStep, toggleMenu]
    split
    · exact hc
    · exact ho
  | menuClick onLink =>
    simp only [menuStep]
    split
    · exact hc
    · exact h
  | keydown key =>
    simp only [menuStep]
    split
    · exact hc
    · exact h
  | documentClick w a b =>
    simp only [menuStep]
    split
    · exact h
    · split
      · exact h
      · split
        · exact hc
        · exact h
  | resize w =>
    simp only [menuStep]
    split
    · exact hc
    · exact h

/-- Any sequence of listener runs keeps the menu consistent. -/
theorem menuRun_consistent (events : List MenuEvent) (m : Menu) (h : m.consistent) :
    (menuRun m events).consistent := by
  induction events generalizing m with
  | nil => exact h
  | cons e es ih => exact ih (menuStep m e) (menuStep_consistent m e h)

/-- C8: when the button and the menu exist, `initMobileMenu` yields a state in
which `aria-expanded` is `'true'` exactly when the menu carries `is-open` and
`'false'` otherwise, and the same holds after every sequence of listener runs
(button click, menu click on a link or elsewhere, any key, document click at
any width, resize to any width) from that state. -/
theorem menu_aria_expanded_invariant (m0 : Menu) :
    ∃ m, initMobileMenu true true m0 = some m ∧
      m.ariaExpanded = some (if m.isOpen then "true".toList else "false".toList) ∧
      ∀ (events : List MenuEvent) (e : MenuEvent),
        (menuRun m events).ariaExpanded
            = some (if (menuRun m events).isOpen then "true".toList else "false".toList) ∧
        (menuStep (menuRun m events) e).ariaExpanded
            = some (if (menuStep (menuRun m events) e).isOpen then "true".toList
                    else "false".toList) := by
  have h0 : (setExpanded m0 m0.isOpen).consistent := by
    simp [setExpanded, Menu.consistent]
  refine ⟨setExpanded m0 m0.isOpen, by simp [initMobileMenu], h0, ?_⟩
  intro events e
  have h1 := menuRun_consistent events _ h0
  exact ⟨h1, menuStep_consistent _ e h1⟩

/-! ## Theme -/

/-- The value of line 202 follows the resolution order of the specification. -/
theorem initialTheme_eq (stored : Option Str) (matchMedia : Option Bool) :
    initialTheme stored matchMedia = resolvedTheme stored matchMedia := by
  unfold initialTheme resolvedTheme getSystemPref
  rcases stored with _ | v
  · rcases matchMedia with _ | b
    · simp
    · cases b <;> simp
  · by_cases hd : v = "dark".toList
    · subst hd; simp
    · by_cases hl : v = "light".toList
      · subst hl; simp
      · rcases matchMedia with _ | b
        · simp_all
        · cases b <;> simp_all

/-- C9: when `#themeToggle` exists and `localStorage` holds `stored` under
`theme`, the theme `initTheme` applies is `stored` when that is exactly
`'dark'` or `'light'`, otherwise `'dark'` when the media query exists and
reports a dark preference, otherwise `'light'`: the body then carries
`theme-dark` exactly when that theme is `'dark'`, `theme-light` otherwise, and
the button is pressed accordingly.  When reading `localStorage` throws, the
resolution is that of nothing stored.  With nothing stored and the ambient
signal dark the page starts dark; with `'light'` stored it starts light
whatever the ambient signal. -/
theorem initTheme_resolution (stored : Option Str) (matchMedia : Option Bool) (s : Theme) :
    initTheme true matchMedia { s with storageAvailable := true, storedTheme := stored }
      = applyTheme { s with storageAvailable := true, storedTheme := stored }
          (resolvedTheme stored matchMedia) ∧
    (initTheme true matchMedia
        { s with storageAvailable := true, storedTheme := stored }).themeDark
      = decide (resolvedTheme stored matchMedia = "dark".toList) ∧
    (initTheme true matchMedia
        { s with storageAvailable := true, storedTheme := stored }).themeLight
      = !decide (resolvedTheme stored matchMedia = "dark".toList) ∧
    (initTheme true matchMedia
        { s with storageAvailable := true, storedTheme := stored }).ariaPressed
      = some (if resolvedTheme stored matchMedia = "dark".toList then "true".toList
              else "false".toList) ∧
    ((stored = some "dark".toList ∨ stored = some "light".toList) →
      some (resolvedTheme stored matchMedia) = stored) ∧
    (stored ≠ some "dark".toList → stored ≠ some "light".toList →
      resolvedTheme stored matchMedia
        = if matchMedia = some true then "dark".toList else "light".toList) ∧
    initTheme true matchMedia { s with storageAvailable := false, storedTheme := stored }
      = applyTheme { s with storageAvailable := false, storedTheme := stored }
          (resolvedTheme none matchMedia) ∧
    (initTheme true (some true)
        { s with storageAvailable := true, storedTheme := none }).themeDark = true ∧
    (initTheme true (some true)
        { s with storageAvailable := true, storedTheme := none }).themeLight = false ∧
    (initTheme true (some true)
        { s with storageAvailable := true, storedTheme := some "light".toList }).themeDark
      = false ∧
    (initTheme true (some false)
        { s with storageAvailable := true, storedTheme := some "dark".toList }).themeDark
      = true := by
  refine ⟨?_, ?_, ?_, ?_, ?_, ?_, ?_, ?_, ?_, ?_, ?_⟩
  · simp [initTheme, getStoredTheme, initialTheme_eq]
  · simp [initTheme, getStoredTheme, initialTheme_eq, applyTheme]
  · simp [initTheme, getStoredTheme, initialTheme_eq, applyTheme]
  · simp [initTheme, getStoredTheme, initialTheme_eq, applyTheme]
  · rintro (h | h) <;> subst h <;> simp [resolvedTheme]
  · intro hd hl
    unfold resolvedTheme
    rw [if_neg hd, if_neg hl]
  · simp [initTheme, getStoredTheme, initialTheme_eq]
  · simp only [initTheme, getStoredTheme, initialTheme_eq, applyTheme, if_true]
    decide
  · simp only [initTheme, getStoredTheme, initialTheme_eq, applyTheme, if_true]
    decide
  · simp only [initTheme, getStoredTheme, initialTheme_eq, applyTheme, if_true]
    decide
  · simp only [initTheme, getStoredTheme, initialTheme_eq, applyTheme, if_true]
    decide

/-! ## Cursor glow -/

/-- An animation frame leaves the target where it is. -/
theorem update_target (g : Glow) :
    (update g).targetX = g.targetX ∧ (update g).targetY = g.targetY := by
  simp [update]

/-- An animation frame multiplies the remaining distance by 0.88 on each axis. -/
theorem update_remaining (g : Glow) :
    (update g).targetX - (update g).currentX = 88 / 100 * (g.targetX - g.currentX) ∧
    (update g).targetY - (update g).currentY = 88 / 100 * (g.targetY - g.currentY) := by
  simp only [update, ease]
  constructor <;> ring

/-- After `n` frames the target is unchanged and the remaining distance is
`0.88 ^ n` times the initial one. -/
theorem ticks_remaining (n : Nat) (g : Glow) :
    (ticks n g).targetX = g.targetX ∧ (ticks n g).targetY = g.targetY ∧
    g.targetX - (ticks n g).currentX = (88 / 100) ^ n * (g.targetX - g.currentX) ∧
    g.targetY - (ticks n g).currentY = (88 / 100) ^ n * (g.targetY - g.currentY) := by
  induction n generalizing g with
  | zero => simp [ticks]
  | succ n ih =>
    obtain ⟨h1, h2, h3, h4⟩ := ih (update g)
    obtain ⟨t1, t2⟩ := update_target g
    obtain ⟨r1, r2⟩ := update_remaining g
    simp only [ticks]
    rw [t1] at h1 h3 r1
    rw [t2] at h2 h4 r2
    refine ⟨h1, h2, ?_, ?_⟩
    · rw [h3, r1]; ring
    · rw [h4, r2]; ring

/-- Powers of 0.88 fall below every positive bound and stay there. -/
theorem pow_ease_small (δ : ℚ) (hδ : 0 < δ) :
    ∃ N : Nat, ∀ n, N ≤ n → ((88 : ℚ) / 100) ^ n < δ := by
  obtain ⟨N, hN⟩ := exists_pow_lt_of_lt_one hδ (by norm_num : ((88 : ℚ) / 100) < 1)
  refine ⟨N, fun n hn => lt_of_le_of_lt ?_ hN⟩
  exact pow_le_pow_of_le_one (by norm_num) (by norm_num) hn

/-- With a fixed target the smoothed position comes within any `ε` of it. -/
theorem ticks_converge (g : Glow) (ε : ℚ) (hε : 0 < ε) :
    ∃ N : Nat, ∀ n, N ≤ n →
      |g.targetX - (ticks n g).currentX| < ε ∧ |g.targetY - (ticks n g).currentY| < ε := by
  have hM : 0 < |g.targetX - g.currentX| + |g.targetY - g.currentY| + 1 := by positivity
  obtain ⟨N, hN⟩ := pow_ease_small (ε / (|g.targetX - g.currentX| + |g.targetY - g.currentY| + 1))
    (div_pos hε hM)
  refine ⟨N, fun n hn => ?_⟩
  obtain ⟨_, _, h3, h4⟩ := ticks_remaining n g
  have hp := hN n hn
  have hpos : (0 : ℚ) ≤ (88 / 100) ^ n := by positivity
  rw [lt_div_iff₀ hM] at hp
  rw [h3, h4, abs_mul, abs_mul, abs_of_nonneg hpos]
  have hx : 0 ≤ |g.targetX - g.currentX| := abs_nonneg _
  have hy : 0 ≤ |g.targetY - g.currentY| := abs_nonneg _
  constructor <;> nlinarith [mul_nonneg hpos hx, mul_nonneg hpos hy]

/-- C10: in rational arithmetic, each `update` moves the smoothed position by
exactly 0.12 of the remaining distance on each axis and leaves the target
alone; after `n` frames the remaining distance is `0.88 ^ n` times the initial
one; so for every `ε > 0` the position is within `ε` of the target on both axes
from some frame on; and after `handleLeave` the same holds with the target
`(0.5, 0.5)`. -/
theorem glow_converges (g : Glow) :
    ((update g).currentX - g.currentX = 12 / 100 * (g.targetX - g.currentX) ∧
     (update g).currentY - g.currentY = 12 / 100 * (g.targetY - g.currentY) ∧
     (update g).targetX = g.targetX ∧ (update g).targetY = g.targetY) ∧
    (∀ n : Nat,
      g.targetX - (ticks n g).currentX = (88 / 100) ^ n * (g.targetX - g.currentX) ∧
      g.targetY - (ticks n g).currentY = (88 / 100) ^ n * (g.targetY - g.currentY)) ∧
    (∀ ε : ℚ, 0 < ε → ∃ N : Nat, ∀ n, N ≤ n →
      |g.targetX - (ticks n g).currentX| < ε ∧ |g.targetY - (ticks n g).currentY| < ε) ∧
    ((handleLeave g).targetX = 1 / 2 ∧ (handleLeave g).targetY = 1 / 2 ∧
     (handleLeave g).currentX = g.currentX ∧ (handleLeave g).currentY = g.currentY) ∧
    (∀ ε : ℚ, 0 < ε → ∃ N : Nat, ∀ n, N ≤ n →
      |1 / 2 - (ticks n (handleLeave g)).currentX| < ε ∧
      |1 / 2 - (ticks n (handleLeave g)).currentY| < ε) := by
  refine ⟨⟨?_, ?_, ?_, ?_⟩, ?_, ?_, ?_, ?_⟩
  · simp only [update, ease]; ring
  · simp only [update, ease]; ring
  · simp [update]
  · simp [update]
  · intro n
    exact ⟨(ticks_remaining n g).2.2.1, (ticks_remaining n g).2.2.2⟩
  · exact ticks_converge g
  · simp [handleLeave]
  · intro ε hε
    exact ticks_converge (handleLeave g) ε hε

/-- C10 at a concrete state: from `(0, 1)` with the target reset to the centre,
the position is within 1/100 of `(0.5, 0.5)` from some frame on. -/
theorem glow_converges_witness :
    ∃ N : Nat, ∀ n, N ≤ n →
      |1 / 2 - (ticks n (handleLeave ⟨1, 1, 0, 0, 1⟩)).currentX| < (1 / 100 : ℚ) ∧
      |1 / 2 - (ticks n (handleLeave ⟨1, 1, 0, 0, 1⟩)).currentY| < (1 / 100 : ℚ) :=
  (glow_converges ⟨1, 1, 0, 0, 1⟩).2.2.2.2 (1 / 100) (by norm_num)

/-! ## Language controller -/

/-- Distinct languages have distinct translation URLs. -/
theorem translationUrl_injective (a b : Str) (h : translationUrl a = translationUrl b) :
    a = b := by
  unfold translationUrl at h
  exact List.append_cancel_left (List.append_cancel_right h)

/-- The cache after an assignment. -/
theorem cached_store (i18n : I18n) (name lang : Str) (value : Payload) :
    (i18n.store name value).cached lang
      = if lang = name then some value else i18n.cached lang := by
  unfold I18n.store I18n.cached
  rw [List.lookup_cons]
  by_cases h : lang = name
  · simp [h]
  · have : (lang == name) = false := by simpa using h
    simp [this, h]

/-- Whether a language counts as loaded after an assignment. -/
theorem loaded_store (i18n : I18n) (name lang : Str) (value : Payload) :
    (i18n.store name value).loaded lang
      = if lang = name then value.truthy else i18n.loaded lang := by
  unfold I18n.loaded
  rw [cached_store]
  by_cases h : lang = name <;> simp [h]

/-- What `setLanguage` leaves alone. -/
theorem setLanguage_fields (pf : Platform) (page : Page) (lang : Str) :
    (setLanguage pf page lang).1.inFlight = page.inFlight ∧
    (setLanguage pf page lang).1.requests = page.requests ∧
    (setLanguage pf page lang).1.listening = page.listening ∧
    (setLanguage pf page lang).1.i18n.translations = page.i18n.translations := by
  simp [setLanguage]

/-- What the code after `setLanguage` in a click handler leaves alone. -/
theorem finish_fields (pf : Platform) (page : Page) (lang stored : Str) :
    (if (setLanguage pf page lang).2 then (setLanguage pf page lang).1
      else storeLanguage (setButtonState (setLanguage pf page lang).1) stored).inFlight
      = page.inFlight ∧
    (if (setLanguage pf page lang).2 then (setLanguage pf page lang).1
      else storeLanguage (setButtonState (setLanguage pf page lang).1) stored).requests
      = page.requests ∧
    (if (setLanguage pf page lang).2 then (setLanguage pf page lang).1
      else storeLanguage (setButtonState (setLanguage pf page lang).1) stored).listening
      = page.listening ∧
    (if (setLanguage pf page lang).2 then (setLanguage pf page lang).1
      else storeLanguage (setButtonState (setLanguage pf page lang).1) stored).i18n.translations
      = page.i18n.translations := by
  obtain ⟨h1, h2, h3, h4⟩ := setLanguage_fields pf page lang
  split
  · exact ⟨h1, h2, h3, h4⟩
  · simp only [storeLanguage, setButtonState]
    split <;> exact ⟨h1, h2, h3, h4⟩

/-- The code resumed after a load caches the value under the language of the
call and touches neither the calls in flight nor the fetch log. -/
theorem resume_fields (pf : Platform) (page : Page) (value : Payload) (caller : Pending) :
    (resume pf page value caller).inFlight = page.inFlight ∧
    (resume pf page value caller).requests = page.requests ∧
    (resume pf page value caller).i18n.translations
      = (caller.lang, value) :: page.i18n.translations := by
  cases caller with
  | init l =>
    simp only [resume, Pending.lang]
    obtain ⟨h1, h2, _, h4⟩ :=
      setLanguage_fields pf { page with i18n := page.i18n.store l value } l
    split
    · exact ⟨h1, h2, by simpa [I18n.store] using h4⟩
    · exact ⟨by simpa [setButtonState] using h1, by simpa [setButtonState] using h2,
        by simpa [setButtonState, I18n.store] using h4⟩
  | click next =>
    simp only [resume, Pending.lang]
    obtain ⟨h1, h2, _, h4⟩ :=
      finish_fields pf { page with i18n := page.i18n.store next.code value } next.code next.code
    exact ⟨h1, h2, by simpa [I18n.store] using h4⟩

/-- Starting a load on a page with nothing in flight, for a language that is
not loaded, keeps loads accounted for. -/
theorem loadTranslations_accounted (page : Page) (lang : Str) (caller : Pending)
    (h : page.loadsAccounted) (hnil : page.inFlight = [])
    (hnone : page.i18n.loaded lang = false) (hcaller : caller.lang = lang) :
    (loadTranslations page lang caller).loadsAccounted := by
  obtain ⟨_, hnd, hreq⟩ := h
  have hfresh : translationUrl lang ∉ page.requests := by
    intro hmem
    obtain ⟨l, hl1, hl2⟩ := hreq _ hmem
    have := translationUrl_injective _ _ hl1
    subst this
    rcases hl2 with hc | ⟨q, hq, _⟩
    · simp [hnone] at hc
    · simp [hnil] at hq
  refine ⟨by simp [loadTranslations, hnil], ?_, ?_⟩
  · simp only [loadTranslations]
    exact List.Nodup.append hnd (List.nodup_singleton _) (by simpa using hfresh)
  · intro u hu
    simp only [loadTranslations, List.mem_append, List.mem_singleton] at hu
    rcases hu with hu | hu
    · obtain ⟨l, hl1, hl2⟩ := hreq u hu
      refine ⟨l, hl1, Or.inl ?_⟩
      rcases hl2 with hc | ⟨q, hq, _⟩
      · simpa [loadTranslations] using hc
      · simp [hnil] at hq
    · exact ⟨_, hu, Or.inr ⟨caller, by simp [loadTranslations], hcaller⟩⟩

/-- The page `initLanguage` leaves at its `await` has its loads accounted for. -/
theorem initLanguage_accounted (hasButton hasIcon storageAvailable : Bool)
    (storedLang : Option Str) (doc : Forest) :
    (initLanguage (Page.boot hasButton hasIcon storageAvailable storedLang doc)).loadsAccounted := by
  have h0 : (Page.boot hasButton hasIcon storageAvailable storedLang doc).loadsAccounted :=
    ⟨by simp [Page.boot], by simp [Page.boot], by simp [Page.boot]⟩
  unfold initLanguage
  split
  · exact loadTranslations_accounted _ _ _ h0 rfl rfl rfl
  · exact h0

/-- A click that arrives while no load is pending, or before the listener is
registered, keeps loads accounted for. -/
theorem onClick_accounted (pf : Platform) (page : Page) (h : page.loadsAccounted)
    (hquiet : ¬ (page.listening = true ∧ page.inFlight ≠ [])) :
    (onClick pf page).loadsAccounted := by
  unfold onClick
  by_cases hl : page.listening = true
  · have hnil : page.inFlight = [] := by
      by_contra hne
      exact hquiet ⟨hl, hne⟩
    simp only [hl, if_true]
    generalize (if page.i18n.lang = .es then Lang.en else Lang.es) = next
    by_cases hnone : (!page.i18n.loaded next.code) = true
    · rw [if_pos hnone]
      exact loadTranslations_accounted _ _ _ h hnil (by simpa using hnone) rfl
    · rw [if_neg hnone]
      obtain ⟨hlen, hnd, hreq⟩ := h
      obtain ⟨h1, h2, _, h4⟩ := finish_fields pf page next.code next.code
      refine ⟨by rw [h1]; exact hlen, by rw [h2]; exact hnd, ?_⟩
      intro u hu
      rw [h2] at hu
      obtain ⟨l, hl1, hl2⟩ := hreq u hu
      refine ⟨l, hl1, ?_⟩
      simpa only [I18n.loaded, I18n.cached, h4, h1] using hl2
  · simp only [hl]
    exact h

/-- A call settling with a truthy value, or failing, keeps loads accounted
for. -/
theorem settle_accounted (pf : Platform) (page : Page) (i : Nat) (response : Option Payload)
    (h : page.loadsAccounted) (htruthy : (loadResult response).truthy = true) :
    (step pf page (.settle i response)).loadsAccounted := by
  obtain ⟨hlen, hnd, hreq⟩ := h
  simp only [step]
  split
  next => exact ⟨hlen, hnd, hreq⟩
  next caller hget =>
    have hone : page.inFlight = [caller] ∧ i = 0 := by
      rcases hfl : page.inFlight with _ | ⟨x, _ | ⟨y, r⟩⟩
      · simp [hfl] at hget
      · rw [hfl] at hget
        cases i with
        | zero => simp at hget; exact ⟨by rw [hget], rfl⟩
        | succ k => simp at hget
      · simp [hfl] at hlen
    obtain ⟨hfl, hi⟩ := hone
    subst hi
    obtain ⟨h1, h2, h3⟩ := resume_fields pf
      { page with inFlight := page.inFlight.eraseIdx 0 } (loadResult response) caller
    refine ⟨by rw [h1, hfl]; simp, by rw [h2]; exact hnd, ?_⟩
    intro u hu
    rw [h2] at hu
    obtain ⟨l, hl1, hl2⟩ := hreq u hu
    refine ⟨l, hl1, Or.inl ?_⟩
    have hc := loaded_store page.i18n caller.lang l (loadResult response)
    simp only [I18n.loaded, I18n.cached, I18n.store] at hc
    simp only [I18n.loaded, I18n.cached, h3, hc]
    rcases hl2 with hc2 | ⟨q, hq, hql⟩
    · by_cases hl : l = caller.lang
      · simp [hl, htruthy]
      · simpa [hl, I18n.loaded, I18n.cached] using hc2
    · rw [hfl] at hq
      simp only [List.mem_singleton] at hq
      subst hq
      simp [hql, htruthy]

/-- Along a schedule in which each click handler completes before the next
click and every file that loads holds a truthy value, loads stay accounted
for. -/
theorem run_accounted (pf : Platform) (events : List Event) (page : Page)
    (h : page.loadsAccounted) (hsched : handlersComplete pf page events = true)
    (htruthy : truthyResponses events = true) :
    (run pf page events).loadsAccounted := by
  induction events generalizing page with
  | nil => exact h
  | cons e es ih =>
    cases e with
    | click =>
      simp only [handlersComplete, Bool.and_eq_true] at hsched
      simp only [truthyResponses] at htruthy
      obtain ⟨hq, hrest⟩ := hsched
      have hquiet : ¬ (page.listening = true ∧ page.inFlight ≠ []) := by
        rintro ⟨h1, h2⟩
        simp [h1, h2] at hq
      exact ih _ (onClick_accounted pf page h hquiet) hrest htruthy
    | settle i response =>
      simp only [handlersComplete] at hsched
      cases response with
      | none =>
        simp only [truthyResponses] at htruthy
        exact ih _ (settle_accounted pf page i none h rfl) hsched htruthy
      | some value =>
        simp only [truthyResponses, Bool.and_eq_true] at htruthy
        exact ih _ (settle_accounted pf page i (some value) h htruthy.1) hsched htruthy.2

/-- Along a schedule in which each click handler completes before the next
click, at most one call is in flight, whatever the files hold. -/
theorem run_inFlight (pf : Platform) (events : List Event) (page : Page)
    (h : page.inFlight.length ≤ 1) (hsched : handlersComplete pf page events = true) :
    (run pf page events).inFlight.length ≤ 1 := by
  induction events generalizing page with
  | nil => exact h
  | cons e es ih =>
    cases e with
    | click =>
      simp only [handlersComplete, Bool.and_eq_true] at hsched
      obtain ⟨hq, hrest⟩ := hsched
      refine ih _ ?_ hrest
      simp only [step, onClick]
      by_cases hl : page.listening = true
      · have hnil : page.inFlight = [] := by
          by_contra hne
          simp [hl, hne] at hq
        simp only [hl, if_true]
        generalize (if page.i18n.lang = .es then Lang.en else Lang.es) = next
        by_cases hnone : (!page.i18n.loaded next.code) = true
        · rw [if_pos hnone]
          simp [loadTranslations, hnil]
        · rw [if_neg hnone, (finish_fields pf page _ _).1]
          exact h
      · simp only [hl]
        exact h
    | settle i response =>
      simp only [handlersComplete] at hsched
      refine ih _ ?_ hsched
      simp only [step]
      split
      · exact h
      · rw [(resume_fields pf _ _ _).1]
        exact le_trans (List.length_eraseIdx_le _ _) h

/-- A value occurs at most once in a list without duplicates. -/
theorem filter_eq_length_le_one (l : List Str) (a : Str) (h : l.Nodup) :
    (l.filter fun u => u = a).length ≤ 1 := by
  induction l with
  | nil => simp
  | cons x xs ih =>
    rw [List.nodup_cons] at h
    by_cases hx : x = a
    · subst hx
      have : xs.filter (fun u => u = x) = [] := by
        rw [List.filter_eq_nil_iff]
        intro u hu
        have hne : u ≠ x := fun hux => h.1 (hux ▸ hu)
        simpa using hne
      simp [List.filter_cons, this]
    · simpa [List.filter_cons, hx] using ih h.2

/-- The claim C4 fails: with nothing stored and a file `i18n/es.json` that
holds `null`, the initial load caches `null`; after a completed click to
English, the next click finds the Spanish entry falsy and fetches
`i18n/es.json` a second time, although every handler ran to completion. -/
theorem null_file_fetched_twice :
    ¬ ∀ events : List Event,
      handlersComplete browser (initLanguage (Page.boot true true true none .nil)) events
        = true →
      ∀ lang : Str,
        fetchesFor (run browser (initLanguage (Page.boot true true true none .nil)) events)
          lang ≤ 1 := by
  intro h
  exact absurd
    (h [.settle 0 (some .falsy), .click, .settle 0 (some (.table [])), .click] (by decide)
      "es".toList)
    (by decide)

/-- C4, amended: for a stored language that is absent, `'es'` or `'en'`, and
any schedule of clicks and settling loads in which each click handler completes
before the next click and every translation file that loads holds a truthy
value (an object, as the interface expects), no translation URL is fetched more
than once.  A failed load is cached as the empty table `{}`, and a click whose
target language has a truthy cache entry, be it `{}`, fetches nothing. -/
theorem loads_at_most_once (pf : Platform) (hasButton hasIcon storageAvailable : Bool)
    (storedLang : Option Str) (doc : Forest) (events : List Event)
    (_hstored : storedLang = none ∨ storedLang = some "es".toList ∨
      storedLang = some "en".toList)
    (hsched : handlersComplete pf
      (initLanguage (Page.boot hasButton hasIcon storageAvailable storedLang doc)) events = true)
    (htruthy : truthyResponses events = true) :
    (∀ lang : Str,
      fetchesFor (run pf (initLanguage
        (Page.boot hasButton hasIcon storageAvailable storedLang doc)) events) lang ≤ 1) ∧
    (∀ (page : Page) (i : Nat) (caller : Pending), page.inFlight.get? i = some caller →
      (step pf page (.settle i none)).i18n.cached caller.lang = some (.table []) ∧
      (step pf page (.settle i none)).i18n.loaded caller.lang = true) ∧
    (∀ page : Page,
      page.i18n.cached (if page.i18n.lang = .es then Lang.en else Lang.es).code
        = some (.table []) →
      (step pf page .click).requests = page.requests) := by
  refine ⟨?_, ?_, ?_⟩
  · intro lang
    have h := run_accounted pf events _
      (initLanguage_accounted hasButton hasIcon storageAvailable storedLang doc) hsched htruthy
    exact filter_eq_length_le_one _ _ h.2.1
  · intro page i caller hget
    simp only [step, hget]
    obtain ⟨_, _, h3⟩ := resume_fields pf
      { page with inFlight := page.inFlight.eraseIdx i } (loadResult none) caller
    have hc := cached_store page.i18n caller.lang caller.lang (loadResult none)
    simp only [I18n.cached, I18n.store, if_true] at hc
    have hcached : (resume pf { page with inFlight := page.inFlight.eraseIdx i }
        (loadResult none) caller).i18n.cached caller.lang = some (.table []) := by
      rw [I18n.cached, h3]
      exact hc
    exact ⟨hcached, by simp [I18n.loaded, hcached, Payload.truthy]⟩
  · intro page hc
    simp only [step, onClick]
    by_cases hl : page.listening = true
    · rw [if_pos hl]
      have hloaded : page.i18n.loaded
          (if page.i18n.lang = .es then Lang.en else Lang.es).code = true := by
        simp [I18n.loaded, hc, Payload.truthy]
      simp only [hloaded, Bool.not_true, Bool.false_eq_true, if_false]
      exact (finish_fields pf page _ _).2.1
    · rw [if_neg hl]

/-- C4 amended, at a concrete schedule: Spanish stored, its load fails, then
three clicks, each completed before the next. -/
theorem loads_at_most_once_witness :
    fetchesFor (run browser (initLanguage (Page.boot true true true (some "es".toList) .nil))
      [.settle 0 none, .click, .settle 0 (some (.table [("hello".toList, "Hi".toList)])),
       .click, .click]) "en".toList ≤ 1 :=
  (loads_at_most_once browser true true true (some "es".toList) .nil
    [.settle 0 none, .click, .settle 0 (some (.table [("hello".toList, "Hi".toList)])),
     .click, .click]
    (by decide) (by decide) (by decide)).1 "en".toList

/-- C5 (defect in the code): with `'fr'` stored, `initLanguage` fetches
`i18n/fr.json` and never `i18n/es.json`; once that load has settled the active
language is `'es'` but no Spanish table is cached, so `t` consults the empty
table.  With nothing stored the file fetched is `i18n/es.json` and the table
consulted is the one loaded. -/
theorem initLanguage_unsupported_stored_value (pf : Platform) (response : Option Payload) :
    (run pf (initLanguage (Page.boot true true true (some "fr".toList) .nil))
      [.settle 0 response]).requests = ["i18n/fr.json".toList] ∧
    (run pf (initLanguage (Page.boot true true true (some "fr".toList) .nil))
      [.settle 0 response]).i18n.lang = .es ∧
    (run pf (initLanguage (Page.boot true true true (some "fr".toList) .nil))
      [.settle 0 response]).i18n.cached "es".toList = none ∧
    (run pf (initLanguage (Page.boot true true true (some "fr".toList) .nil))
      [.settle 0 response]).i18n.cached "fr".toList = some (loadResult response) ∧
    (∀ key : Str,
      t (run pf (initLanguage (Page.boot true true true (some "fr".toList) .nil))
        [.settle 0 response]).i18n key = t I18n.initial key) ∧
    (run pf (initLanguage (Page.boot true true true none .nil))
      [.settle 0 response]).requests = ["i18n/es.json".toList] ∧
    (run pf (initLanguage (Page.boot true true true none .nil))
      [.settle 0 response]).i18n.lang = .es ∧
    (run pf (initLanguage (Page.boot true true true none .nil))
      [.settle 0 response]).i18n.cached "es".toList = some (loadResult response) := by
  refine ⟨?_, ?_, ?_, ?_, ?_, ?_, ?_, ?_⟩ <;>
    simp [run, step, initLanguage, Page.boot, getStoredLanguage, truthyStr, loadTranslations,
      resume, setLanguage, setButtonState, applyTranslations, localizeForest, I18n.store,
      I18n.cached, I18n.initial, translationUrl, List.lookup, t, Lang.code]

/-- The claim C7 fails: after `initLanguage` has finished, two clicks in a row
leave two `loadTranslations` calls for `'en'` in flight. -/
theorem two_loads_in_flight :
    ¬ ∀ (events : List Event) (lang : Str),
      inFlightFor (run browser (initLanguage (Page.boot true true true none .nil)) events)
        lang ≤ 1 := by
  intro h
  exact absurd (h [.settle 0 none, .click, .click] "en".toList) (by decide)

/-- C7, amended: along every schedule of clicks and settling loads in which no
click is dispatched while the load started by an earlier click is pending, at
most one `loadTranslations` call is in flight per language; a click dispatched
before the listener is registered, that is while the load of `initLanguage` is
pending, starts none. -/
theorem in_flight_at_most_one (pf : Platform) (hasButton hasIcon storageAvailable : Bool)
    (storedLang : Option Str) (doc : Forest) (events : List Event)
    (hsched : handlersComplete pf
      (initLanguage (Page.boot hasButton hasIcon storageAvailable storedLang doc)) events = true) :
    (∀ lang : Str,
      inFlightFor (run pf (initLanguage
        (Page.boot hasButton hasIcon storageAvailable storedLang doc)) events) lang ≤ 1) ∧
    (∀ page : Page, page.listening = false → step pf page .click = page) ∧
    (initLanguage (Page.boot hasButton hasIcon storageAvailable storedLang doc)).listening
      = false := by
  refine ⟨?_, ?_, ?_⟩
  · intro lang
    have h := run_inFlight pf events _
      (initLanguage_accounted hasButton hasIcon storageAvailable storedLang doc).1 hsched
    exact le_trans (List.length_filter_le _ _) h
  · intro page hl
    simp [step, onClick, hl]
  · unfold initLanguage
    split <;> simp [loadTranslations, Page.boot]

/-- C7 amended, at a concrete schedule: a click during the initial load, then
clicks each completed before the next. -/
theorem in_flight_at_most_one_witness :
    inFlightFor (run browser (initLanguage (Page.boot true true true none .nil))
      [.click, .settle 0 none, .click, .settle 0 none, .click, .click]) "en".toList ≤ 1 :=
  (in_flight_at_most_one browser true true true none .nil
    [.click, .settle 0 none, .click, .settle 0 none, .click, .click] (by decide)).1 "en".toList

/-! ## Attribute lists -/

/-- Reading an attribute list after `setAttr`. -/
theorem lookup_setAttr (n v m : Str) (l : List (Str × Str)) :
    (setAttr n v l).lookup m = if m = n then some v else l.lookup m := by
  induction l with
  | nil =>
    by_cases h : m = n
    · simp [setAttr, List.lookup, h]
    · have : (m == n) = false := by simpa using h
      simp [setAttr, List.lookup, h, this]
  | cons kv r ih =>
    obtain ⟨k, w⟩ := kv
    by_cases hk : k = n
    · subst hk
      by_cases h : m = k
      · simp [setAttr, List.lookup, h]
      · have : (m == k) = false := by simpa using h
        simp [setAttr, List.lookup, h, this]
    · by_cases hmk : m = k
      · subst hmk
        simp [setAttr, List.lookup, hk]
      · have : (m == k) = false := by simpa using hmk
        simp [setAttr, List.lookup, hk, this, ih]

/-- Setting an attribute twice keeps the second value. -/
theorem setAttr_setAttr (n v w : Str) (l : List (Str × Str)) :
    setAttr n v (setAttr n w l) = setAttr n v l := by
  induction l with
  | nil => simp [setAttr]
  | cons kv r ih =>
    obtain ⟨k, x⟩ := kv
    by_cases hk : k = n
    · simp [setAttr, hk]
    · simp [setAttr, hk, ih]

/-- The attribute names after `setAttr`. -/
theorem mem_keys_setAttr (n v m : Str) (l : List (Str × Str)) :
    m ∈ (setAttr n v l).map Prod.fst ↔ m = n ∨ m ∈ l.map Prod.fst := by
  induction l with
  | nil => simp [setAttr]
  | cons kv r ih =>
    obtain ⟨k, x⟩ := kv
    by_cases hk : k = n
    · subst hk
      simp [setAttr]
    · simp only [setAttr, hk, if_false, List.map_cons, List.mem_cons, ih]
      tauto

/-- Setting two different attributes commutes once the first one set exists. -/
theorem setAttr_comm (n v m w : Str) (l : List (Str × Str)) (hnm : n ≠ m)
    (hm : m ∈ l.map Prod.fst) :
    setAttr n v (setAttr m w l) = setAttr m w (setAttr n v l) := by
  induction l with
  | nil => simp at hm
  | cons kv r ih =>
    obtain ⟨k, x⟩ := kv
    by_cases hkm : k = m
    · subst hkm
      have hkn : ¬ k = n := fun h => hnm h.symm
      simp [setAttr, hkn]
    · have hm2 : m ∈ r.map Prod.fst := by
        simp only [List.map_cons, List.mem_cons] at hm
        rcases hm with h | h
        · exact absurd h.symm hkm
        · exact h
      by_cases hkn : k = n
      · subst hkn
        simp [setAttr, hkm]
      · simp [setAttr, hkm, hkn, ih hm2]

/-- The attribute names after a run of updates. -/
theorem mem_keys_setAttrs (us : List (Str × Str)) (m : Str) (l : List (Str × Str)) :
    m ∈ (setAttrs us l).map Prod.fst ↔ m ∈ us.map Prod.fst ∨ m ∈ l.map Prod.fst := by
  induction us generalizing l with
  | nil => simp [setAttrs]
  | cons u us ih =>
    have := ih (setAttr u.1 u.2 l)
    simp only [setAttrs, List.foldl_cons] at this ⊢
    rw [this, mem_keys_setAttr]
    simp only [List.map_cons, List.mem_cons]
    tauto

/-- Reading an attribute no update addresses. -/
theorem lookup_setAttrs_other (us : List (Str × Str)) (m : Str) (l : List (Str × Str))
    (hm : m ∉ us.map Prod.fst) : (setAttrs us l).lookup m = l.lookup m := by
  induction us generalizing l with
  | nil => simp [setAttrs]
  | cons u us ih =>
    simp only [List.map_cons, List.mem_cons, not_or] at hm
    have := ih (setAttr u.1 u.2 l) hm.2
    simp only [setAttrs, List.foldl_cons] at this ⊢
    rw [this, lookup_setAttr, if_neg hm.1]

/-- An update made before a run of updates that all address existing
attributes is absorbed by the same update made after the run. -/
theorem setAttr_setAttrs_setAttr (us : List (Str × Str)) (n v : Str) (l : List (Str × Str))
    (hus : ∀ u ∈ us, u.1 ∈ l.map Prod.fst) :
    setAttr n v (setAttrs us (setAttr n v l)) = setAttr n v (setAttrs us l) := by
  induction us generalizing l with
  | nil => simp [setAttrs, setAttr_setAttr]
  | cons u us ih =>
    have hu : u.1 ∈ l.map Prod.fst := hus u (List.mem_cons_self _ _)
    have hrest : ∀ u2 ∈ us, u2.1 ∈ (setAttr u.1 u.2 l).map Prod.fst := by
      intro u2 hu2
      rw [mem_keys_setAttr]
      exact Or.inr (hus u2 (List.mem_cons_of_mem _ hu2))
    simp only [setAttrs, List.foldl_cons]
    by_cases hn : u.1 = n
    · rw [hn, setAttr_setAttr]
    · have hc := setAttr_comm n v u.1 u.2 l (fun h => hn h.symm) hu
      rw [← hc]
      exact ih (setAttr u.1 u.2 l) hrest

/-- Running the same updates a second time changes nothing. -/
theorem setAttrs_idem (us : List (Str × Str)) (l : List (Str × Str)) :
    setAttrs us (setAttrs us l) = setAttrs us l := by
  induction us using List.reverseRecOn generalizing l with
  | nil => simp [setAttrs]
  | append_singleton us u ih =>
    have hsnoc : ∀ x, setAttrs (us ++ [u]) x = setAttr u.1 u.2 (setAttrs us x) := by
      intro x
      simp [setAttrs, List.foldl_append]
    rw [hsnoc, hsnoc]
    have hkeys : ∀ u2 ∈ us, u2.1 ∈ (setAttrs us l).map Prod.fst := by
      intro u2 hu2
      rw [mem_keys_setAttrs]
      exact Or.inl (List.mem_map_of_mem _ hu2)
    rw [setAttr_setAttrs_setAttr us u.1 u.2 _ hkeys, ih]

/-- Updates never remove an attribute. -/
theorem lookup_setAttrs_isSome (us : List (Str × Str)) (m : Str) (l : List (Str × Str))
    (h : (l.lookup m).isSome = true) : ((setAttrs us l).lookup m).isSome = true := by
  induction us generalizing l with
  | nil => simpa [setAttrs] using h
  | cons u us ih =>
    simp only [setAttrs, List.foldl_cons]
    apply ih
    rw [lookup_setAttr]
    split
    · rfl
    · exact h

/-- Reading an attribute after a run of updates: the value of the last update
that addresses it, else the value it had. -/
theorem lookup_setAttrs (us : List (Str × Str)) (m : Str) (l : List (Str × Str)) :
    (setAttrs us l).lookup m
      = match us.reverse.lookup m with
        | some v => some v
        | none => l.lookup m := by
  induction us using List.reverseRecOn generalizing l with
  | nil => simp [setAttrs]
  | append_singleton us u ih =>
    have hsnoc : setAttrs (us ++ [u]) l = setAttr u.1 u.2 (setAttrs us l) := by
      simp [setAttrs, List.foldl_append]
    rw [hsnoc, lookup_setAttr, List.reverse_append, List.reverse_singleton, List.singleton_append,
      List.lookup_cons]
    by_cases h : m = u.1
    · simp [h]
    · have hb : (m == u.1) = false := by simpa using h
      simp only [h, if_false, hb]
      exact ih l

/-! ## The `forEach` callback on one element -/

/-- Once a call has thrown, the remaining pairs change nothing. -/
theorem foldl_applyPair_threw (pf : Platform) (i18n : I18n) (key : Option Str)
    (pairs : List Str) (st : Traced) (h : st.threw = true) :
    pairs.foldl (fun st pair => if st.threw then st else applyPair pf i18n key st pair) st
      = st := by
  induction pairs with
  | nil => rfl
  | cons pair pairs ih => simp [List.foldl_cons, h, ih]

/-- The callback on a pair makes the call `pairWrites` decides, if any. -/
theorem applyPair_eq (pf : Platform) (i18n : I18n) (key : Option Str) (st : Traced)
    (pair : Str) :
    applyPair pf i18n key st pair
      = match pairWrites i18n key pair with
        | [] => st
        | .setAttribute n v :: _ => st.callSetAttribute pf n v
        | _ :: _ => st := by
  unfold applyPair pairWrites
  by_cases ha : (pairAttr pair).isEmpty = true
  · simp [ha]
  · simp only [ha]
    cases keyToUse (pairKey pair) key with
    | none => simp
    | some k =>
      by_cases hk : k.isEmpty = true
      · simp [hk]
      · by_cases hv : (t i18n k).truthy = true
        · simp [hk, hv]
        · simp [hk, hv]

/-- Every call decided for a pair is a `setAttribute` of the pair's attribute. -/
theorem pairWrites_cases (i18n : I18n) (key : Option Str) (pair : Str) :
    pairWrites i18n key pair = [] ∨
    ∃ v, pairWrites i18n key pair = [.setAttribute (pairAttr pair) v] := by
  unfold pairWrites
  by_cases ha : (pairAttr pair).isEmpty = true
  · simp [ha]
  · simp only [ha]
    cases keyToUse (pairKey pair) key with
    | none => simp
    | some k =>
      by_cases hk : k.isEmpty = true
      · simp [hk]
      · by_cases hv : (t i18n k).truthy = true
        · simp [hk, hv]
        · simp [hk, hv]

/-- The callbacks on a list of pairs carry out the calls decided for them up
to the first one that throws. -/
theorem foldl_applyPair_eq (pf : Platform) (i18n : I18n) (key : Option Str)
    (pairs : List Str) (st : Traced) (h : st.threw = false) :
    pairs.foldl (fun st pair => if st.threw then st else applyPair pf i18n key st pair) st
      = { el := ⟨st.el.html,
            setAttrs (attrUpdates st.el.html
              (accepted pf (pairs.flatMap (pairWrites i18n key)))) st.el.attrs⟩,
          content := st.content,
          writes := st.writes ++ accepted pf (pairs.flatMap (pairWrites i18n key)),
          threw := rejected pf (pairs.flatMap (pairWrites i18n key)) } := by
  induction pairs generalizing st with
  | nil =>
    cases st
    simp_all [accepted, rejected, attrUpdates, setAttrs]
  | cons pair pairs ih =>
    rw [List.foldl_cons]
    simp only [h, Bool.false_eq_true, if_false, List.flatMap_cons]
    rw [applyPair_eq]
    rcases pairWrites_cases i18n key pair with hw | ⟨v, hw⟩
    · rw [hw]
      simpa using ih st h
    · rw [hw]
      simp only [List.singleton_append]
      by_cases hvalid : pf.validName (pairAttr pair) = true
      · have hst : (st.callSetAttribute pf (pairAttr pair) v).threw = false := by
          simp [Traced.callSetAttribute, hvalid, h]
        rw [ih _ hst]
        simp [Traced.callSetAttribute, hvalid, accepted, rejected, Write.accepted, attrUpdates,
          setAttrs, Element.setAttribute, Element.attrName, List.takeWhile_cons]
      · have hst : (st.callSetAttribute pf (pairAttr pair) v).threw = true := by
          simp [Traced.callSetAttribute, hvalid]
        rw [foldl_applyPair_threw pf i18n key pairs _ hst]
        cases st
        simp_all [Traced.callSetAttribute, accepted, rejected, Write.accepted, attrUpdates,
          setAttrs, List.takeWhile_cons]

/-- The text part makes the content write `textWrites` decides. -/
theorem applyText_eq (pf : Platform) (i18n : I18n) (key : Option Str) (el : Element) :
    applyText pf i18n key ⟨el, none, [], false⟩
      = ⟨el, contentOf pf (textWrites i18n key el.i18nHtml),
          textWrites i18n key el.i18nHtml, false⟩ := by
  unfold applyText textWrites
  cases key with
  | none => simp [contentOf]
  | some k =>
    by_cases hk : k.isEmpty = true
    · simp [hk, contentOf]
    · by_cases hv : (t i18n k).truthy = true
      · simp only [hk, hv, if_true, Bool.false_eq_true, if_false]
        split <;> simp [contentOf]
      · simp [hk, hv, contentOf]

/-- The callback on an element: the writes decided from its markers, carried
out up to the first `setAttribute` call that throws. -/
theorem applyElement_eq (pf : Platform) (i18n : I18n) (el : Element) :
    applyElement pf i18n el
      = { el := ⟨el.html, setAttrs (overrides pf i18n el) el.attrs⟩,
          content := contentWrite pf i18n el,
          writes := textWrites i18n el.i18n el.i18nHtml
            ++ accepted pf (attrWrites i18n el.i18n el.i18nAttr),
          threw := rejected pf (attrWrites i18n el.i18n el.i18nAttr) } := by
  unfold applyElement
  dsimp only
  rw [applyText_eq]
  unfold applyAttrs overrides contentWrite attrWrites specPairs
  dsimp only
  cases el.i18nAttr with
  | none => simp [accepted, rejected, attrUpdates, setAttrs]
  | some spec =>
    by_cases hs : spec.isEmpty = true
    · simp [hs, accepted, rejected, attrUpdates, setAttrs]
    · simp only [hs]
      rw [foldl_applyPair_eq pf i18n el.i18n _ _ rfl]
      rfl

/-! ## The pass over the document -/

/-- Nodes left untouched form the forest they formed. -/
theorem untouched_doc (f : Forest) : (Trace.untouched f).doc = f := by
  induction f with
  | nil => rfl
  | text data next ih => simp [Trace.untouched, Trace.doc, ih]
  | element el children next _ ihn => simp [Trace.untouched, Trace.doc, ihn]

/-- A forest without selected elements is left as it is, with no write. -/
theorem localizeForest_noMarked (pf : Platform) (i18n : I18n) (f : Forest)
    (h : f.noMarked = true) : localizeForest pf i18n f = ⟨Trace.untouched f, [], false⟩ := by
  induction f with
  | nil => rfl
  | text data next ih =>
    simp only [Forest.noMarked] at h
    simp [localizeForest, ih h, Trace.untouched]
  | element el children next ihc ihn =>
    simp only [Forest.noMarked, Bool.and_eq_true, Bool.not_eq_true'] at h
    obtain ⟨⟨hm, hc⟩, hn⟩ := h
    simp [localizeForest, hm, ihc hc, ihn hn, Trace.untouched, Pass.doc, untouched_doc]

/-- The document a pass over a forest without selected elements leaves. -/
theorem localizeForest_noMarked_doc (pf : Platform) (i18n : I18n) (f : Forest)
    (h : f.noMarked = true) : (localizeForest pf i18n f).doc = f := by
  rw [localizeForest_noMarked pf i18n f h]
  exact untouched_doc f

/-- At a position the `forEach` gets to, the nodes after the pass are what the
pass makes of the part of the document that starts there. -/
theorem sub_localizeForest (pf : Platform) (i18n : I18n) (p : List Step) (f g : Forest)
    (hsub : f.sub p = some g) (hvisit : visits pf i18n p f = true) :
    (localizeForest pf i18n f).nodes.sub p = some (localizeForest pf i18n g).nodes := by
  induction p generalizing f with
  | nil =>
    simp only [Forest.sub, Option.some.injEq] at hsub
    subst hsub
    rfl
  | cons s p ih =>
    cases f with
    | nil => cases s <;> simp [Forest.sub] at hsub
    | text data next =>
      cases s with
      | next =>
        simp only [Forest.sub] at hsub
        simp only [visits] at hvisit
        simpa [localizeForest, Trace.sub] using ih next hsub hvisit
      | child => simp [Forest.sub] at hsub
    | element el children next =>
      cases s with
      | next =>
        simp only [Forest.sub] at hsub
        simp only [visits, Bool.and_eq_true, Bool.or_eq_true, Bool.not_eq_true'] at hvisit
        obtain ⟨⟨hel, hinner⟩, hrest⟩ := hvisit
        have := ih next hsub hrest
        by_cases hm : el.marked = true
        · have hth : (applyElement pf i18n el).threw = false := by
            rcases hel with h | h
            · simp [hm] at h
            · exact h
          simpa [localizeForest, hm, hth, hinner, Trace.sub] using this
        · simpa [localizeForest, hm, hinner, Trace.sub] using this
      | child =>
        simp only [Forest.sub] at hsub
        simp only [visits, Bool.and_eq_true, Bool.or_eq_true, Bool.not_eq_true'] at hvisit
        obtain ⟨hel, hrest⟩ := hvisit
        have := ih children hsub hrest
        by_cases hm : el.marked = true
        · have hth : (applyElement pf i18n el).threw = false := by
            rcases hel with h | h
            · simp [hm] at h
            · exact h
          by_cases hinner : (localizeForest pf i18n children).threw = true
          · simpa [localizeForest, hm, hth, hinner, Trace.sub] using this
          · simpa [localizeForest, hm, hth, hinner, Trace.sub] using this
        · by_cases hinner : (localizeForest pf i18n children).threw = true
          · simpa [localizeForest, hm, hinner, Trace.sub] using this
          · simpa [localizeForest, hm, hinner, Trace.sub] using this

/-- At a position the `forEach` gets to with the node there still in the
document, the document after the pass holds the nodes the pass left there. -/
theorem sub_doc_localizeForest (pf : Platform) (i18n : I18n) (p : List Step) (f : Forest)
    (hvisit : visits pf i18n p f = true) (hatt : attached pf i18n p f = true) :
    (localizeForest pf i18n f).doc.sub p
      = ((localizeForest pf i18n f).nodes.sub p).map Trace.doc := by
  induction p generalizing f with
  | nil => rfl
  | cons s p ih =>
    cases f with
    | nil => cases s <;> simp [visits] at hvisit
    | text data next =>
      cases s with
      | next =>
        simp only [visits] at hvisit
        simp only [attached] at hatt
        simpa [localizeForest, Pass.doc, Trace.doc, Trace.sub, Forest.sub]
          using ih next hvisit hatt
      | child => simp [visits] at hvisit
    | element el children next =>
      cases s with
      | next =>
        simp only [visits, Bool.and_eq_true, Bool.or_eq_true, Bool.not_eq_true'] at hvisit
        simp only [attached] at hatt
        obtain ⟨⟨hel, hinner⟩, hrest⟩ := hvisit
        have := ih next hrest hatt
        by_cases hm : el.marked = true
        · have hth : (applyElement pf i18n el).threw = false := by
            rcases hel with h | h
            · simp [hm] at h
            · exact h
          simpa [localizeForest, hm, hth, hinner, Pass.doc, Trace.doc, Trace.sub, Forest.sub]
            using this
        · simpa [localizeForest, hm, hinner, Pass.doc, Trace.doc, Trace.sub, Forest.sub]
            using this
      | child =>
        simp only [visits, Bool.and_eq_true, Bool.or_eq_true, Bool.not_eq_true'] at hvisit
        simp only [attached, Bool.and_eq_true, Bool.or_eq_true, Bool.not_eq_true'] at hatt
        obtain ⟨hel, hrest⟩ := hvisit
        obtain ⟨hcont, hatt2⟩ := hatt
        have := ih children hrest hatt2
        by_cases hm : el.marked = true
        · have hth : (applyElement pf i18n el).threw = false := by
            rcases hel with h | h
            · simp [hm] at h
            · exact h
          have hnone : (applyElement pf i18n el).content = none := by
            rcases hcont with h | h
            · simp [hm] at h
            · simpa using h
          by_cases hinner : (localizeForest pf i18n children).threw = true
          · simpa [localizeForest, hm, hth, hnone, hinner, Pass.doc, Trace.doc, Trace.sub,
              Forest.sub] using this
          · simpa [localizeForest, hm, hth, hnone, hinner, Pass.doc, Trace.doc, Trace.sub,
              Forest.sub] using this
        · by_cases hinner : (localizeForest pf i18n children).threw = true
          · simpa [localizeForest, hm, hinner, Pass.doc, Trace.doc, Trace.sub, Forest.sub]
              using this
          · simpa [localizeForest, hm, hinner, Pass.doc, Trace.doc, Trace.sub, Forest.sub]
              using this

/-- What the pass makes of a forest that starts with an element: the element
with the attributes the accepted overrides give it; its children are those a
content write gave it, else its former children, visited unless the
element's own callback threw. -/
theorem localizeForest_element (pf : Platform) (i18n : I18n) (el : Element)
    (children next : Forest) :
    ∃ former2 next2, (localizeForest pf i18n (.element el children next)).nodes
      = .element ⟨el.html, setAttrs (overrides pf i18n el) el.attrs⟩
          (if el.marked then
            (contentWrite pf i18n el).getD
              (if rejected pf (attrWrites i18n el.i18n el.i18nAttr) then children
               else (localizeForest pf i18n children).doc)
           else (localizeForest pf i18n children).doc) former2 next2 := by
  by_cases hm : el.marked = true
  · simp only [localizeForest, hm, if_true, applyElement_eq]
    by_cases hth : rejected pf (attrWrites i18n el.i18n el.i18nAttr) = true
    · exact ⟨_, _, by simp [hth]; exact ⟨rfl, rfl⟩⟩
    · by_cases hinner : (localizeForest pf i18n children).threw = true
      · exact ⟨_, _, by simp [hth, hinner]; exact ⟨rfl, rfl⟩⟩
      · exact ⟨_, _, by simp [hth, hinner]; exact ⟨rfl, rfl⟩⟩
  · have hattr : el.i18nAttr = none := by
      simp only [Element.marked, Bool.or_eq_true, not_or] at hm
      simpa using hm.2
    have hov : setAttrs (overrides pf i18n el) el.attrs = el.attrs := by
      simp [overrides, attrWrites, specPairs, hattr, accepted, attrUpdates, setAttrs]
    rw [hov]
    simp only [localizeForest, hm]
    by_cases hinner : (localizeForest pf i18n children).threw = true
    · exact ⟨_, _, by simp [hinner]; exact ⟨rfl, rfl⟩⟩
    · exact ⟨_, _, by simp [hinner]; exact ⟨rfl, rfl⟩⟩

/-! ## A second pass -/

/-- Every update among the overrides addresses the attribute of a pair of the
element's override string. -/
theorem mem_overrides (pf : Platform) (i18n : I18n) (el : Element) (u : Str × Str)
    (hu : u ∈ overrides pf i18n el) :
    ∃ pair ∈ specPairs el.i18nAttr, u.1 = el.attrName (pairAttr pair) := by
  have hgen : ∀ ws : List Write, u ∈ attrUpdates el.html ws →
      ∃ n v, Write.setAttribute n v ∈ ws ∧ u = ((if el.html then asciiLower n else n), v) := by
    intro ws
    induction ws with
    | nil => intro h; simp [attrUpdates] at h
    | cons w ws ih =>
      intro h
      cases w with
      | textContent x =>
        obtain ⟨n, v, h1, h2⟩ := ih (by simpa [attrUpdates] using h)
        exact ⟨n, v, List.mem_cons_of_mem _ h1, h2⟩
      | innerHTML x =>
        obtain ⟨n, v, h1, h2⟩ := ih (by simpa [attrUpdates] using h)
        exact ⟨n, v, List.mem_cons_of_mem _ h1, h2⟩
      | setAttribute n0 v0 =>
        simp only [attrUpdates, List.mem_cons] at h
        rcases h with h | h
        · exact ⟨n0, v0, List.mem_cons_self _ _, h⟩
        · obtain ⟨n, v, h1, h2⟩ := ih h
          exact ⟨n, v, List.mem_cons_of_mem _ h1, h2⟩
  obtain ⟨n, v, hmem, hu2⟩ := hgen _ hu
  have hmem2 : Write.setAttribute n v ∈ attrWrites i18n el.i18n el.i18nAttr :=
    List.takeWhile_subset _ hmem
  unfold attrWrites at hmem2
  rw [List.mem_flatMap] at hmem2
  obtain ⟨pair, hp, hw⟩ := hmem2
  refine ⟨pair, hp, ?_⟩
  rcases pairWrites_cases i18n el.i18n pair with h0 | ⟨v2, h1⟩
  · simp [h0] at hw
  · rw [h1, List.mem_singleton] at hw
    injection hw with hn _
    rw [hu2, hn]
    rfl

/-- An element that keeps its markers reads the same markers after its
callback, and a second callback changes nothing further. -/
theorem callback_idem (pf : Platform) (i18n : I18n) (el : Element)
    (h : el.keepsMarkers = true) :
    (⟨el.html, setAttrs (overrides pf i18n el) el.attrs⟩ : Element).marked = el.marked ∧
    overrides pf i18n ⟨el.html, setAttrs (overrides pf i18n el) el.attrs⟩
      = overrides pf i18n el ∧
    contentWrite pf i18n ⟨el.html, setAttrs (overrides pf i18n el) el.attrs⟩
      = contentWrite pf i18n el ∧
    textWrites i18n (⟨el.html, setAttrs (overrides pf i18n el) el.attrs⟩ : Element).i18n
        (⟨el.html, setAttrs (overrides pf i18n el) el.attrs⟩ : Element).i18nHtml
      = textWrites i18n el.i18n el.i18nHtml ∧
    attrWrites i18n (⟨el.html, setAttrs (overrides pf i18n el) el.attrs⟩ : Element).i18n
        (⟨el.html, setAttrs (overrides pf i18n el) el.attrs⟩ : Element).i18nAttr
      = attrWrites i18n el.i18n el.i18nAttr ∧
    setAttrs (overrides pf i18n el) (setAttrs (overrides pf i18n el) el.attrs)
      = setAttrs (overrides pf i18n el) el.attrs := by
  have key : ∀ m ∈ markerNames,
      (setAttrs (overrides pf i18n el) el.attrs).lookup m = el.attrs.lookup m := by
    intro m hm
    apply lookup_setAttrs_other
    intro hmem
    rw [List.mem_map] at hmem
    obtain ⟨u, hu, hum⟩ := hmem
    obtain ⟨pair, hp, hname⟩ := mem_overrides pf i18n el u hu
    simp only [Element.keepsMarkers, List.all_eq_true, Bool.not_eq_true'] at h
    have := h pair hp
    rw [← hname, hum] at this
    simp [hm] at this
  have h1 : (⟨el.html, setAttrs (overrides pf i18n el) el.attrs⟩ : Element).i18n = el.i18n :=
    key _ (by decide)
  have h2 : (⟨el.html, setAttrs (overrides pf i18n el) el.attrs⟩ : Element).i18nHtml
      = el.i18nHtml := key _ (by decide)
  have h3 : (⟨el.html, setAttrs (overrides pf i18n el) el.attrs⟩ : Element).i18nAttr
      = el.i18nAttr := key _ (by decide)
  refine ⟨?_, ?_, ?_, ?_, ?_, setAttrs_idem _ _⟩
  · simp [Element.marked, h1, h3]
  · unfold overrides at h1 h3 ⊢
    dsimp only at h1 h3 ⊢
    rw [h1, h3]
  · simp [contentWrite, h1, h2]
  · rw [h1, h2]
  · rw [h1, h3]

/-- On a tame document a second pass leaves the document as the first left it,
performs the same writes and ends the same way. -/
theorem localizeForest_idem (pf : Platform) (i18n : I18n) (f : Forest)
    (h : f.tame pf i18n = true) :
    (localizeForest pf i18n (localizeForest pf i18n f).doc).doc = (localizeForest pf i18n f).doc ∧
    (localizeForest pf i18n (localizeForest pf i18n f).doc).writes
      = (localizeForest pf i18n f).writes ∧
    (localizeForest pf i18n (localizeForest pf i18n f).doc).threw
      = (localizeForest pf i18n f).threw := by
  induction f with
  | nil => exact ⟨rfl, rfl, rfl⟩
  | text data next ih =>
    simp only [Forest.tame] at h
    obtain ⟨i1, i2, i3⟩ := ih h
    simp only [Pass.doc] at i1 i2 i3
    simp only [localizeForest, Pass.doc, Trace.doc, i1, i2, i3, and_self]
  | element el children next ihc ihn =>
    simp only [Forest.tame, Bool.and_eq_true] at h
    obtain ⟨hel, hn⟩ := h
    obtain ⟨n1, n2, n3⟩ := ihn hn
    simp only [Pass.doc] at n1 n2 n3
    by_cases hm : el.marked = true
    · simp only [hm, if_true, Bool.and_eq_true] at hel
      obtain ⟨hkeep, hcontent⟩ := hel
      obtain ⟨c1, c2, c3, c4, c5, c6⟩ := callback_idem pf i18n el hkeep
      have hm2 := c1.trans hm
      by_cases hth : rejected pf (attrWrites i18n el.i18n el.i18nAttr) = true
      · simp only [localizeForest, Pass.doc, Trace.doc, hm, if_true, applyElement_eq, hth, hm2,
          c2, c3, c4, c5, c6, untouched_doc, and_self, and_true]
        cases contentWrite pf i18n el <;> rfl
      · cases hcw : contentWrite pf i18n el with
        | some fresh =>
          rw [hcw] at hcontent
          simp only [Bool.and_eq_true] at hcontent
          have hc := localizeForest_noMarked pf i18n children hcontent.1
          have hf := localizeForest_noMarked pf i18n fresh hcontent.2
          simp only [localizeForest, Pass.doc, Trace.doc, hm, if_true, applyElement_eq, hth, hm2,
            c2, c3, c4, c5, c6, hcw, hc, hf, Option.getD_some, Bool.false_eq_true, if_false,
            n1, n2, n3, List.nil_append, and_self]
        | none =>
          rw [hcw] at hcontent
          obtain ⟨i1, i2, i3⟩ := ihc hcontent
          simp only [Pass.doc] at i1 i2 i3
          by_cases hinner : (localizeForest pf i18n children).threw = true
          · simp only [localizeForest, Pass.doc, Trace.doc, hm, if_true, applyElement_eq, hth,
              hm2, c2, c3, c4, c5, c6, hcw, Option.getD_none, hinner, Bool.false_eq_true,
              if_false, i1, i2, i3, untouched_doc, and_self]
          · simp only [localizeForest, Pass.doc, Trace.doc, hm, if_true, applyElement_eq, hth,
              hm2, c2, c3, c4, c5, c6, hcw, Option.getD_none, hinner, Bool.false_eq_true,
              if_false, i1, i2, i3, n1, n2, n3, and_self]
    · simp only [hm, Bool.false_eq_true, if_false] at hel
      obtain ⟨i1, i2, i3⟩ := ihc hel
      simp only [Pass.doc] at i1 i2 i3
      by_cases hinner : (localizeForest pf i18n children).threw = true
      · simp only [localizeForest, Pass.doc, Trace.doc, hm, Bool.false_eq_true, if_false, hinner,
          if_true, i1, i2, i3, untouched_doc, and_self]
      · simp only [localizeForest, Pass.doc, Trace.doc, hm, Bool.false_eq_true, if_false, hinner,
          i1, i2, i3, n1, n2, n3, and_self]

/-! ## DOM localizer -/

/-- A string without the separator is a single piece. -/
theorem split_of_not_mem (sep : Char) (a : Str) (h : sep ∉ a) : split sep a = [a] := by
  induction a with
  | nil => rfl
  | cons c cs ih =>
    simp only [List.mem_cons, not_or] at h
    have hc : ¬ c = sep := fun e => h.1 e.symm
    simp [split, hc, ih h.2]

/-- The first piece ends at the first separator. -/
theorem split_append_sep (sep : Char) (a b : Str) (h : sep ∉ a) :
    split sep (a ++ sep :: b) = a :: split sep b := by
  induction a with
  | nil => simp [split]
  | cons c cs ih =>
    simp only [List.mem_cons, not_or] at h
    have hc : ¬ c = sep := fun e => h.1 e.symm
    simp [split, hc, ih h.2]

/-- The updates of two lists of writes, one after the other. -/
theorem attrUpdates_append (html : Bool) (ws1 ws2 : List Write) :
    attrUpdates html (ws1 ++ ws2) = attrUpdates html ws1 ++ attrUpdates html ws2 := by
  induction ws1 with
  | nil => rfl
  | cons w ws ih => cases w <;> simp [attrUpdates, ih]

/-- Every update that comes from a list of pairs addresses the attribute of
one of them. -/
theorem mem_attrUpdates_pairs (i18n : I18n) (key : Option Str) (html : Bool)
    (pairs : List Str) (u : Str × Str)
    (hu : u ∈ attrUpdates html (pairs.flatMap (pairWrites i18n key))) :
    ∃ pair ∈ pairs, u.1 = if html then asciiLower (pairAttr pair) else pairAttr pair := by
  induction pairs with
  | nil => simp [attrUpdates] at hu
  | cons pair pairs ih =>
    rw [List.flatMap_cons, attrUpdates_append, List.mem_append] at hu
    rcases hu with hu | hu
    · rcases pairWrites_cases i18n key pair with h0 | ⟨v, h1⟩
      · simp [h0, attrUpdates] at hu
      · simp only [h1, attrUpdates, List.mem_singleton] at hu
        exact ⟨pair, List.mem_cons_self _ _, by rw [hu]⟩
    · obtain ⟨q, hq, hname⟩ := ih hu
      exact ⟨q, List.mem_cons_of_mem _ hq, hname⟩

/-- When the DOM accepts the attribute name of every pair, every call decided
is carried out. -/
theorem accepted_of_valid (pf : Platform) (i18n : I18n) (key attrSpec : Option Str)
    (h : ∀ pair ∈ specPairs attrSpec, pf.validName (pairAttr pair) = true) :
    accepted pf (attrWrites i18n key attrSpec) = attrWrites i18n key attrSpec ∧
    rejected pf (attrWrites i18n key attrSpec) = false := by
  have hall : ∀ w ∈ attrWrites i18n key attrSpec, w.accepted pf = true := by
    intro w hw
    unfold attrWrites at hw
    rw [List.mem_flatMap] at hw
    obtain ⟨pair, hp, hw⟩ := hw
    rcases pairWrites_cases i18n key pair with h0 | ⟨v, h1⟩
    · simp [h0] at hw
    · rw [h1, List.mem_singleton] at hw
      subst hw
      exact h pair hp
  constructor
  · unfold accepted
    rw [List.takeWhile_eq_self_iff]
    exact hall
  · unfold rejected
    rw [Bool.eq_false_iff]
    intro hany
    rw [List.any_eq_true] at hany
    obtain ⟨w, hw, hnot⟩ := hany
    simp [hall w hw] at hnot

/-- The content write decided for an element with a non-empty text key. -/
theorem contentWrite_eq (pf : Platform) (i18n : I18n) (el : Element) (k : Str)
    (hk : el.i18n = some k) (hne : k ≠ []) :
    contentWrite pf i18n el
      = if (t i18n k).truthy then
          some (if el.i18nHtml = some "true".toList then pf.parse (t i18n k).toStr
                else textNode (t i18n k).toStr)
        else none := by
  have hk2 : k.isEmpty = false := by
    cases k with
    | nil => exact absurd rfl hne
    | cons c cs => rfl
  unfold contentWrite textWrites
  rw [hk]
  simp only [hk2, Bool.false_eq_true, if_false]
  by_cases hv : (t i18n k).truthy = true
  · simp only [hv, if_true]
    split <;> simp [contentOf]
  · simp [hv, contentOf]

/-- At a position the `forEach` gets to, an element ends with the attributes
the accepted overrides give it, and with the children a content write gave it
or else its former children, visited unless the element's own callback threw. -/
theorem element_after_pass (pf : Platform) (i18n : I18n) (doc : Forest) (p : List Step)
    (el : Element) (children next : Forest)
    (hat : doc.sub p = some (.element el children next))
    (hvisit : visits pf i18n p doc = true) :
    ∃ former2 next2, (applyTranslations pf i18n doc).nodes.sub p
      = some (.element ⟨el.html, setAttrs (overrides pf i18n el) el.attrs⟩
          (if el.marked then
            (contentWrite pf i18n el).getD
              (if rejected pf (attrWrites i18n el.i18n el.i18nAttr) then children
               else (localizeForest pf i18n children).doc)
           else (localizeForest pf i18n children).doc) former2 next2) := by
  obtain ⟨former2, next2, h2⟩ := localizeForest_element pf i18n el children next
  refine ⟨former2, next2, ?_⟩
  unfold applyTranslations
  rw [sub_localizeForest pf i18n p doc _ hat hvisit, h2]

/-- The claim C2 fails.  An element flagged `data-i18n-html="true"` whose key
is present with the non-empty value `<b>Hi</b>` gets that value as markup, so
its text is not `t(k)`.  Further: an element whose `data-i18n` is the empty
string is never written, though `t('')` is `X`; an element keyed `constructor`,
a key missing from the table, has its content replaced by the text of the
inherited function; an element keyed `missing` has its content changed when a
selected element inside it is written; and an element keyed `hello` stays
unwritten when `setAttribute` throws on an earlier element. -/
theorem text_not_always_set :
    (¬ ∀ (pf : Platform) (i18n : I18n) (el : Element) (children next : Forest)
        (k v : Str) (entries : Table),
      el.i18n = some k → i18n.cached i18n.lang.code = some (.table entries) →
      entries.lookup k = some v → v ≠ [] →
      ∃ el2 next2, (applyTranslations pf i18n (.element el children next)).doc
        = .element el2 (.text (t i18n k).toStr .nil) next2) ∧
    (t englishEmptyKey [] = .str "X".toList ∧
     (applyTranslations browser englishEmptyKey (.element emptyKeyTag oldContent .nil)).doc
        = .element emptyKeyTag oldContent .nil) ∧
    (([("hello".toList, "Hi".toList)] : Table).lookup "constructor".toList = none ∧
     (applyTranslations browser englishHi (.element constructorTag oldContent .nil)).doc
        = .element constructorTag
            (.text (JsVal.native "Object".toList).toStr .nil) .nil) ∧
    (t englishHi "missing".toList = .str [] ∧
     (applyTranslations browser englishHi
        (.element missingTag (.element helloTag oldContent .nil) .nil)).doc
        = .element missingTag (.element helloTag (.text "Hi".toList .nil) .nil) .nil) ∧
    ((applyTranslations browser englishHi
        (.element spacedTag .nil (.element helloTag oldContent .nil))).doc
        = .element spacedTag .nil (.element helloTag oldContent .nil) ∧
     (applyTranslations browser englishHi
        (.element spacedTag .nil (.element helloTag oldContent .nil))).writes = [[]] ∧
     (applyTranslations browser englishHi
        (.element spacedTag .nil (.element helloTag oldContent .nil))).threw = true) := by
  refine ⟨?_, by decide, by decide, by decide, by decide⟩
  intro h
  obtain ⟨el2, next2, hdoc⟩ := h browser englishRich richTag (.text "old".toList .nil) .nil
    "hello".toList "<b>Hi</b>".toList [("hello".toList, "<b>Hi</b>".toList)]
    (by decide) rfl (by decide) (by decide)
  have hd : (applyTranslations browser englishRich
      (.element richTag (.text "old".toList .nil) .nil)).doc
      = .element richTag (.element ⟨true, []⟩ (.text "Hi".toList .nil) .nil) .nil := by decide
  rw [hd] at hdoc
  injection hdoc with _ hchildren _
  exact absurd hchildren (by decide)

/-- C2, amended: for every element with a non-empty text key `k` that the
`forEach` of `applyTranslations` gets to (no `setAttribute` call on an earlier
element has thrown), whether or not the element is still in the document by
then: when `k` is a key of the active table with a non-empty value `v`, then
`t(k)` is `v` and `v` becomes the element's content, as a text node, or as
parsed markup when the element carries `data-i18n-html="true"`; when `t(k)` is
the empty string, which is so for every `k` that is neither a key of the table
read nor a property name of `Object.prototype`, and the element contains no
selected element, its content stays as it was.  When no element around it had
its content replaced, the element is found so in the document after the call.
With `{"hello": "Hi"}` active, a plain element keyed `hello` gets the text
`Hi` and one keyed `missing` keeps its content, also when English is activated
through `initLanguage` and `setLanguage`. -/
theorem text_localization (pf : Platform) (i18n : I18n) (doc : Forest) (p : List Step)
    (el : Element) (children next : Forest) (k : Str)
    (hat : doc.sub p = some (.element el children next))
    (hvisit : visits pf i18n p doc = true)
    (hk : el.i18n = some k) (hne : k ≠ []) :
    (∀ (entries : Table) (v : Str),
      i18n.cached i18n.lang.code = some (.table entries) → entries.lookup k = some v →
      v ≠ [] →
      t i18n k = .str v ∧
      ∃ el2 former2 next2, (applyTranslations pf i18n doc).nodes.sub p
        = some (.element el2
            (if el.i18nHtml = some "true".toList then pf.parse v else .text v .nil)
            former2 next2)) ∧
    (t i18n k = .str [] → children.noMarked = true →
      ∃ el2 former2 next2, (applyTranslations pf i18n doc).nodes.sub p
        = some (.element el2 children former2 next2)) ∧
    (∀ entries : Table, i18n.activeEntries = some entries → entries.lookup k = none →
      objectPrototypeGet k = .undefined → t i18n k = .str []) ∧
    (attached pf i18n p doc = true →
      (applyTranslations pf i18n doc).doc.sub p
        = ((applyTranslations pf i18n doc).nodes.sub p).map Trace.doc) ∧
    ((applyTranslations browser englishHi scenarioDoc).doc
        = .element helloTag (.text "Hi".toList .nil) (.element missingTag oldContent .nil) ∧
     (applyTranslations browser englishHi scenarioDoc).writes
        = [[.textContent "Hi".toList], []] ∧
     (applyTranslations browser englishHi scenarioDoc).threw = false) ∧
    (run browser (initLanguage (Page.boot true true true (some "en".toList) scenarioDoc))
      [.settle 0 (some (.table [("hello".toList, "Hi".toList)]))]).doc
      = .element helloTag (.text "Hi".toList .nil) (.element missingTag oldContent .nil) := by
  have hm : el.marked = true := by simp [Element.marked, hk]
  obtain ⟨former2, next2, hsub⟩ := element_after_pass pf i18n doc p el children next hat hvisit
  rw [if_pos hm, contentWrite_eq pf i18n el k hk hne] at hsub
  refine ⟨?_, ?_, ?_, ?_, by decide, by decide⟩
  · intro entries v hactive hv hvne
    have ht := t_present i18n k v entries hactive hv hvne
    refine ⟨ht, ⟨el.html, setAttrs (overrides pf i18n el) el.attrs⟩, former2, next2, ?_⟩
    have htr : (JsVal.str v).truthy = true := by
      cases v with
      | nil => exact absurd rfl hvne
      | cons c cs => rfl
    have htn : textNode v = .text v .nil := by
      cases v with
      | nil => exact absurd rfl hvne
      | cons c cs => rfl
    rw [hsub, ht]
    simp only [htr, if_true, JsVal.toStr, Option.getD_some, htn]
  · intro hv hnm
    refine ⟨⟨el.html, setAttrs (overrides pf i18n el) el.attrs⟩, former2, next2, ?_⟩
    rw [hsub, hv]
    simp only [JsVal.truthy, List.isEmpty_nil, Bool.not_true, Bool.false_eq_true, if_false,
      Option.getD_none, localizeForest_noMarked_doc pf i18n children hnm]
    split <;> rfl
  · intro entries hactive hown hproto
    exact t_missing i18n k entries hactive hown hproto
  · intro hatt
    exact sub_doc_localizeForest pf i18n p doc hvisit hatt

/-- C2 amended, at a concrete document: the rich element keyed `hello`, second
in the document, receives the value as parsed markup. -/
theorem text_localization_witness :
    t englishRich "hello".toList = .str "<b>Hi</b>".toList ∧
    ∃ el2 former2 next2,
      (applyTranslations browser englishRich
        (.element missingTag oldContent (.element richTag oldContent .nil))).nodes.sub [.next]
        = some (.element el2
            (if richTag.i18nHtml = some "true".toList then browser.parse "<b>Hi</b>".toList
             else .text "<b>Hi</b>".toList .nil) former2 next2) :=
  (text_localization browser englishRich
    (.element missingTag oldContent (.element richTag oldContent .nil)) [.next]
    richTag oldContent .nil "hello".toList (by decide) (by decide) (by decide) (by decide)).1
    [("hello".toList, "<b>Hi</b>".toList)] "<b>Hi</b>".toList rfl (by decide) (by decide)

/-- The claim C3 fails: with `{"hello": "Hi"}` active, the override string
`ti tle:hello` names a non-empty attribute and resolves to the non-empty value
`Hi`, yet the attribute is not set: the DOM rejects the name, `setAttribute`
throws and `applyTranslations` ends there.  Further, with
`{"hello": "Hi", "bye": "Bye"}` active and the override string
`title:hello,title:bye`, the pair `title:hello` resolves to `Hi`, yet the
attribute `title` ends as `Bye`. -/
theorem setAttribute_rejects_name :
    (¬ ∀ (pf : Platform) (i18n : I18n) (el : Element) (children next : Forest)
        (pair k : Str),
      specPairs el.i18nAttr = [pair] → pairAttr pair ≠ [] →
      keyToUse (pairKey pair) el.i18n = some k → k ≠ [] → t i18n k ≠ .str [] →
      ∃ el2 children2 next2,
        (applyTranslations pf i18n (.element el children next)).doc
          = .element el2 children2 next2 ∧
        el2.getAttribute (pairAttr pair) = some (t i18n k).toStr) ∧
    ((applyTranslations browser englishHi (.element spacedTag .nil .nil)).doc
        = .element spacedTag .nil .nil ∧
     (applyTranslations browser englishHi (.element spacedTag .nil .nil)).writes = [[]] ∧
     (applyTranslations browser englishHi (.element spacedTag .nil .nil)).threw = true) ∧
    (t englishTwo "hello".toList = .str "Hi".toList ∧
     (applyTranslations browser englishTwo (.element twiceTag .nil .nil)).doc
        = .element (twiceTag.setAttribute "title".toList "Bye".toList) .nil .nil ∧
     (applyTranslations browser englishTwo (.element twiceTag .nil .nil)).writes
        = [[.setAttribute "title".toList "Hi".toList,
            .setAttribute "title".toList "Bye".toList]]) := by
  refine ⟨?_, by decide, by decide⟩
  intro h
  obtain ⟨el2, c2, n2, hdoc, hget⟩ := h browser englishHi spacedTag .nil .nil
    "ti tle:hello".toList "hello".toList (by decide) (by decide) (by decide) (by decide)
    (by decide)
  have hd : (applyTranslations browser englishHi (.element spacedTag .nil .nil)).doc
      = .element spacedTag .nil .nil := by decide
  rw [hd] at hdoc
  injection hdoc with hel _ _
  subst hel
  exact absurd hget (by decide)

/-- C3, amended: for every element that the `forEach` of `applyTranslations`
gets to (no `setAttribute` call on an earlier element has thrown), whether or
not the element is still in the document by then, the override string is read
as its comma-separated pieces in order; a piece `attr:key` yields the trimmed
attribute name and key, a piece without colon no key; an omitted or empty key
is replaced by the element's text key; a piece with an empty attribute name,
with no key at all, or whose key resolves to the empty string decides no call;
every other piece decides the call `setAttribute(attr, t(key))`.  The calls
are carried out in order up to the first name the DOM rejects, where
`setAttribute` throws and `applyTranslations` ends; all are carried out when
every name is accepted.  After the pass each attribute holds the value of the
last call carried out that addresses it, else the value it had: a pair none of
whose successors addresses the same attribute leaves its value there,
attributes no piece names keep their value, and no attribute is removed.  When
no element around it had its content replaced, the element is found so in the
document after the call. -/
theorem attribute_overrides (pf : Platform) (i18n : I18n) (doc : Forest) (p : List Step)
    (el : Element) (children next : Forest)
    (hat : doc.sub p = some (.element el children next))
    (hvisit : visits pf i18n p doc = true) :
    (∃ children2 former2 next2, (applyTranslations pf i18n doc).nodes.sub p
      = some (.element ⟨el.html, setAttrs (overrides pf i18n el) el.attrs⟩
          children2 former2 next2)) ∧
    (∀ n : Str, (setAttrs (overrides pf i18n el) el.attrs).lookup n
      = match (overrides pf i18n el).reverse.lookup n with
        | some v => some v
        | none => el.attrs.lookup n) ∧
    overrides pf i18n el
      = attrUpdates el.html
          (accepted pf ((specPairs el.i18nAttr).flatMap (pairWrites i18n el.i18n))) ∧
    (∀ spec : Str, el.i18nAttr = some spec → spec ≠ [] →
      specPairs el.i18nAttr = split ',' spec) ∧
    ((el.i18nAttr = none ∨ el.i18nAttr = some []) → specPairs el.i18nAttr = []) ∧
    (∀ a b : Str, ':' ∉ a → ':' ∉ b →
      pairAttr (a ++ ':' :: b) = trim a ∧ pairKey (a ++ ':' :: b) = some (trim b)) ∧
    (∀ a : Str, ':' ∉ a → pairAttr a = trim a ∧ pairKey a = none) ∧
    (∀ pair : Str, (pairKey pair = none ∨ pairKey pair = some []) →
      keyToUse (pairKey pair) el.i18n = el.i18n) ∧
    (∀ (pair : Str) (k : Str), pairKey pair = some k → k ≠ [] →
      keyToUse (pairKey pair) el.i18n = some k) ∧
    (∀ pair : Str, pairAttr pair = [] → pairWrites i18n el.i18n pair = []) ∧
    (∀ pair : Str,
      (keyToUse (pairKey pair) el.i18n = none ∨ keyToUse (pairKey pair) el.i18n = some []) →
      pairWrites i18n el.i18n pair = []) ∧
    (∀ (pair : Str) (k : Str), keyToUse (pairKey pair) el.i18n = some k →
      t i18n k = .str [] → pairWrites i18n el.i18n pair = []) ∧
    (∀ (pair : Str) (k : Str), pairAttr pair ≠ [] →
      keyToUse (pairKey pair) el.i18n = some k → k ≠ [] → t i18n k ≠ .str [] →
      pairWrites i18n el.i18n pair = [.setAttribute (pairAttr pair) (t i18n k).toStr]) ∧
    ((∀ pair ∈ specPairs el.i18nAttr, pf.validName (pairAttr pair) = true) →
      overrides pf i18n el
        = attrUpdates el.html ((specPairs el.i18nAttr).flatMap (pairWrites i18n el.i18n))) ∧
    (∀ (before after : List Str) (pair k : Str),
      specPairs el.i18nAttr = before ++ pair :: after →
      (∀ q ∈ specPairs el.i18nAttr, pf.validName (pairAttr q) = true) →
      pairAttr pair ≠ [] → keyToUse (pairKey pair) el.i18n = some k → k ≠ [] →
      t i18n k ≠ .str [] →
      (∀ q ∈ after, el.attrName (pairAttr q) ≠ el.attrName (pairAttr pair)) →
      (⟨el.html, setAttrs (overrides pf i18n el) el.attrs⟩ : Element).getAttribute
        (pairAttr pair) = some (t i18n k).toStr) ∧
    (∀ n : Str, (∀ pair ∈ specPairs el.i18nAttr, el.attrName (pairAttr pair) ≠ n) →
      (setAttrs (overrides pf i18n el) el.attrs).lookup n = el.attrs.lookup n) ∧
    (∀ n : Str, (el.attrs.lookup n).isSome = true →
      ((setAttrs (overrides pf i18n el) el.attrs).lookup n).isSome = true) ∧
    (el.marked = true → rejected pf (attrWrites i18n el.i18n el.i18nAttr) = true →
      (applyTranslations pf i18n (.element el children next)).threw = true ∧
      (applyTranslations pf i18n (.element el children next)).writes
        = [textWrites i18n el.i18n el.i18nHtml
            ++ accepted pf (attrWrites i18n el.i18n el.i18nAttr)]) ∧
    (attached pf i18n p doc = true →
      (applyTranslations pf i18n doc).doc.sub p
        = ((applyTranslations pf i18n doc).nodes.sub p).map Trace.doc) := by
  have hpw : ∀ (pair : Str) (k : Str), pairAttr pair ≠ [] →
      keyToUse (pairKey pair) el.i18n = some k → k ≠ [] → t i18n k ≠ .str [] →
      pairWrites i18n el.i18n pair = [.setAttribute (pairAttr pair) (t i18n k).toStr] := by
    intro pair k ha hk hne hv
    have htr := (t_truthy_iff i18n k).mpr hv
    have ha2 : (pairAttr pair).isEmpty = false := by
      cases hp : pairAttr pair with
      | nil => exact absurd hp ha
      | cons c cs => rfl
    have hk2 : k.isEmpty = false := by
      cases k with
      | nil => exact absurd rfl hne
      | cons c cs => rfl
    simp [pairWrites, ha2, hk, hk2, htr]
  refine ⟨?_, ?_, rfl, ?_, ?_, ?_, ?_, ?_, ?_, ?_, ?_, ?_, hpw, ?_, ?_, ?_, ?_, ?_, ?_⟩
  · obtain ⟨former2, next2, h2⟩ :=
      element_after_pass pf i18n doc p el children next hat hvisit
    exact ⟨_, former2, next2, h2⟩
  · intro n
    exact lookup_setAttrs _ n _
  · intro spec hspec hne
    cases spec with
    | nil => exact absurd rfl hne
    | cons c cs => simp [specPairs, hspec]
  · rintro (h | h) <;> simp [specPairs, h]
  · intro a b ha hb
    simp [pairAttr, pairKey, split_append_sep ':' a b ha, split_of_not_mem ':' b hb]
  · intro a ha
    simp [pairAttr, pairKey, split_of_not_mem ':' a ha]
  · rintro pair (h | h) <;> simp [keyToUse, truthyStr, h]
  · intro pair k hk hne
    cases k with
    | nil => exact absurd rfl hne
    | cons c cs => simp [keyToUse, truthyStr, hk]
  · intro pair h
    simp [pairWrites, h]
  · rintro pair (h | h) <;> simp [pairWrites, h]
  · intro pair k hk hv
    simp [pairWrites, hk, hv, JsVal.truthy]
  · intro hvalid
    unfold overrides
    rw [(accepted_of_valid pf i18n el.i18n el.i18nAttr hvalid).1]
    rfl
  · intro before after pair k hsplit hvalid ha hk hne hv hafter
    have hov : overrides pf i18n el
        = attrUpdates el.html (before.flatMap (pairWrites i18n el.i18n))
          ++ (el.attrName (pairAttr pair), (t i18n k).toStr)
            :: attrUpdates el.html (after.flatMap (pairWrites i18n el.i18n)) := by
      unfold overrides
      rw [(accepted_of_valid pf i18n el.i18n el.i18nAttr hvalid).1]
      unfold attrWrites
      rw [hsplit, List.flatMap_append, List.flatMap_cons, hpw pair k ha hk hne hv,
        attrUpdates_append, attrUpdates_append]
      rfl
    have hnone : (attrUpdates el.html (after.flatMap (pairWrites i18n el.i18n))).reverse.lookup
        (el.attrName (pairAttr pair)) = none := by
      rw [List.lookup_eq_none_iff]
      intro u hu
      rw [List.mem_reverse] at hu
      obtain ⟨q, hq, hname⟩ := mem_attrUpdates_pairs i18n el.i18n el.html after u hu
      have := hafter q hq
      simp only [bne_iff_ne, ne_eq]
      intro heq
      apply this
      rw [heq, hname]
      rfl
    unfold Element.getAttribute
    show (setAttrs (overrides pf i18n el) el.attrs).lookup
      ((⟨el.html, setAttrs (overrides pf i18n el) el.attrs⟩ : Element).attrName (pairAttr pair))
        = _
    have hname : (⟨el.html, setAttrs (overrides pf i18n el) el.attrs⟩ : Element).attrName
        (pairAttr pair) = el.attrName (pairAttr pair) := rfl
    rw [hname, lookup_setAttrs, hov, List.reverse_append, List.reverse_cons, List.append_assoc,
      List.lookup_append, hnone]
    simp [List.lookup_cons]
  · intro n hn
    apply lookup_setAttrs_other
    intro hmem
    rw [List.mem_map] at hmem
    obtain ⟨u, hu, hun⟩ := hmem
    obtain ⟨pair, hp, hname⟩ := mem_overrides pf i18n el u hu
    exact hn pair hp (by rw [← hname, hun])
  · intro n hn
    exact lookup_setAttrs_isSome _ _ _ hn
  · intro hm hth
    simp [applyTranslations, localizeForest, hm, applyElement_eq, hth]
  · intro hatt
    exact sub_doc_localizeForest pf i18n p doc hvisit hatt

/-- C3 amended, at a concrete document: with `{"hello": "Hi"}` active, the
element `<a data-i18n="hello" data-i18n-attr="title, aria-label:hello,
alt:missing" alt="old">`, second in the document, has `aria-label` set to
`Hi`. -/
theorem attribute_overrides_witness :
    (⟨linkTag.html, setAttrs (overrides browser englishHi linkTag) linkTag.attrs⟩ :
      Element).getAttribute (pairAttr " aria-label:hello".toList) = some (t englishHi "hello".toList).toStr :=
  (attribute_overrides browser englishHi (.element missingTag oldContent (.element linkTag .nil .nil))
    [.next] linkTag .nil .nil (by decide) (by decide)).2.2.2.2.2.2.2.2.2.2.2.2.2.2.1
    ["title".toList] [" alt:missing".toList] " aria-label:hello".toList "hello".toList
    (by decide) (by decide) (by decide) (by decide) (by decide) (by decide) (by decide)

/-- The claim C6 fails.  With `{"a": "A", "b": "c", "c": "C"}` active, the
first call on `<p data-i18n="a" data-i18n-attr="data-i18n:b">` writes the text
`A` and changes the text key to `c`, so the second call writes the text `C`.
An override pair that addresses `data-i18n-html` or `data-i18n-attr` has the
same effect: the first call writes a text and sets the flag, the second writes
markup; the first call replaces the override string, the second carries out
the new one.  Further: on `<p data-i18n="a"><span data-i18n="b"></span></p>`
the first call writes both elements and the second only the outer one; and
with the value `<span data-i18n=b>x</span>` for a rich element, the second
call also writes the `span` the first call inserted. -/
theorem applyTranslations_not_idempotent :
    (¬ ∀ (pf : Platform) (i18n : I18n) (doc : Forest),
      (applyTranslations pf i18n (applyTranslations pf i18n doc).doc).doc
        = (applyTranslations pf i18n doc).doc ∧
      (applyTranslations pf i18n (applyTranslations pf i18n doc).doc).writes
        = (applyTranslations pf i18n doc).writes) ∧
    ((applyTranslations browser englishChain (.element selfKeyedTag .nil .nil)).writes
        = [[.textContent "A".toList, .setAttribute "data-i18n".toList "c".toList]] ∧
     (applyTranslations browser englishChain
        (applyTranslations browser englishChain (.element selfKeyedTag .nil .nil)).doc).writes
        = [[.textContent "C".toList, .setAttribute "data-i18n".toList "c".toList]]) ∧
    ((applyTranslations browser englishFlag (.element flagKeyedTag .nil .nil)).writes
        = [[.textContent "<b>Hi</b>".toList,
            .setAttribute "data-i18n-html".toList "true".toList]] ∧
     (applyTranslations browser englishFlag
        (applyTranslations browser englishFlag (.element flagKeyedTag .nil .nil)).doc).writes
        = [[.innerHTML "<b>Hi</b>".toList,
            .setAttribute "data-i18n-html".toList "true".toList]]) ∧
    ((applyTranslations browser englishSpec (.element specKeyedTag .nil .nil)).writes
        = [[.setAttribute "data-i18n-attr".toList "title:a".toList]] ∧
     (applyTranslations browser englishSpec
        (applyTranslations browser englishSpec (.element specKeyedTag .nil .nil)).doc).writes
        = [[.setAttribute "title".toList "A".toList]]) ∧
    ((applyTranslations browser englishChain (.element aTag (.element bTag .nil .nil) .nil)).writes
        = [[.textContent "A".toList], [.textContent "c".toList]] ∧
     (applyTranslations browser englishChain
        (applyTranslations browser englishChain
          (.element aTag (.element bTag .nil .nil) .nil)).doc).writes
        = [[.textContent "A".toList]]) ∧
    ((applyTranslations browser englishMarkup (.element aRichTag .nil .nil)).writes
        = [[.innerHTML "<span data-i18n=b>x</span>".toList]] ∧
     (applyTranslations browser englishMarkup
        (applyTranslations browser englishMarkup (.element aRichTag .nil .nil)).doc).writes
        = [[.innerHTML "<span data-i18n=b>x</span>".toList], [.textContent "B".toList]]) := by
  refine ⟨?_, by decide, by decide, by decide, by decide, by decide⟩
  intro h
  exact absurd (h browser englishChain (.element selfKeyedTag .nil .nil)).2 (by decide)

/-- C6, amended: for every store and every document in which no pair of an
attribute-override string addresses one of the marker attributes `data-i18n`,
`data-i18n-html`, `data-i18n-attr`, no selected element whose content
`applyTranslations` replaces contains a selected element, and the content such
an element receives contains none either, a second call of `applyTranslations`
leaves the document as the first call left it, performs the same writes as the
first, and ends as the first did. -/
theorem applyTranslations_idempotent (pf : Platform) (i18n : I18n) (doc : Forest)
    (h : doc.tame pf i18n = true) :
    (applyTranslations pf i18n (applyTranslations pf i18n doc).doc).doc
      = (applyTranslations pf i18n doc).doc ∧
    (applyTranslations pf i18n (applyTranslations pf i18n doc).doc).writes
      = (applyTranslations pf i18n doc).writes ∧
    (applyTranslations pf i18n (applyTranslations pf i18n doc).doc).threw
      = (applyTranslations pf i18n doc).threw := by
  unfold applyTranslations
  exact localizeForest_idem pf i18n doc h

/-- C6 amended, at a concrete document: an unselected element around a link
with overrides and a rich element, followed by an element with a missing key. -/
theorem applyTranslations_idempotent_witness :
    (applyTranslations browser englishRich (applyTranslations browser englishRich
        (.element ⟨true, []⟩ (.element linkTag oldContent (.element richTag oldContent .nil))
          (.element missingTag oldContent .nil))).doc).writes
      = (applyTranslations browser englishRich
        (.element ⟨true, []⟩ (.element linkTag oldContent (.element richTag oldContent .nil))
          (.element missingTag oldContent .nil))).writes :=
  (applyTranslations_idempotent browser englishRich
    (.element ⟨true, []⟩ (.element linkTag oldContent (.element richTag oldContent .nil))
      (.element missingTag oldContent .nil)) (by decide)).2.1

end Portfolio
